import Mathlib

/-!
Verification development for the Reed-Solomon fragment gossip layer
(`eth/reedsolomon` and `eth/handler.go`).

The embedding below translates the live versions of the source functions:
the fragment pool of `rsinterface.go` (the `Insert` with hop-count and
peer-id arguments, which is the one `handler.go` calls), the
`SpliceAndDecode`/`DivideAndEncode` pair returning `([]byte, bool)`
(the one the pool's `TryDecode` calls), and the message/broadcast paths
of `handler.go`.  Go runtime panics (out-of-range indexing, nil map
entry dereference) are modelled by `Option`, with `none` standing for a
panic.  Go byte values are modelled by `GF` (a wrapper around
`Fin 256`), positions (`uint8`) by `Fin 256`, bitsets by `Finset Nat`,
and the `id -> line` map by a function `Nat -> Option FragLine`.
-/

/-- A byte / element of GF(2^8), as used for fragment code symbols. -/
structure GF where
  val : Fin 256
  deriving DecidableEq, Repr

/-- `Fragment` from `fragment.go`: `pos uint8`, `code []byte`. -/
structure Fragment where
  pos : Fin 256
  code : List GF
  deriving DecidableEq, Repr

/-- `ReqNode` from `rsinterface.go`: a pending request (bitmap, peer id). -/
structure ReqNode where
  bit : Finset Nat
  peerID : String
  deriving DecidableEq

/-- `FragLine` from `rsinterface.go` (the live pool's per-object entry).
The linked list `head` is modelled as a `List Fragment`; the bitset
`Bit` as a `Finset Nat`; the pending-request list `ReqHead` as a
`List ReqNode`. -/
structure FragLine where
  head : List Fragment
  bit : Finset Nat
  minHop : Nat
  minHopPeer : String
  totalFrag : Nat
  cnt : Nat
  trial : Nat
  typ : Nat
  isDecoded : Nat
  td : Int
  isReqing : Nat
  reqHead : List ReqNode
  deriving DecidableEq

/-- `FragPool` from `rsinterface.go`: the `id -> line` map, as a function. -/
structure FragPool where
  load : Nat → Option FragLine

/-- `NewFragLine` from `rsinterface.go`. -/
def NewFragLine (newNode : Fragment) (fragType : Nat) (minHop : Nat)
    (minHopPeer : String) : FragLine :=
  { head := [newNode]
    bit := ∅
    minHop := minHop
    minHopPeer := minHopPeer
    totalFrag := 0
    cnt := 0
    trial := 0
    typ := fragType
    isDecoded := 0
    td := 0
    isReqing := 0
    reqHead := [] }

/-- `NewFragPool` from `rsinterface.go`: an empty map. -/
def NewFragPool : FragPool := ⟨fun _ => none⟩

/-- The walk of `Insert`'s for-loop in `rsinterface.go` (lines 186-199):
starting at node `p` with `p.pos < x.pos`, advance while the next
node's position is below `x.pos`; stop and report a duplicate when an
equal position is found, otherwise splice `x` in before the first
larger position (or at the end).  Returns the rebuilt list from `p` on
and the `flag` (true iff `x` was inserted). -/
def insertWalk (x : Fragment) (p : Fragment) : List Fragment → List Fragment × Bool
  | [] => ([p, x], true)
  | q :: r =>
    if x.pos = q.pos then (p :: q :: r, false)
    else if x.pos < q.pos then (p :: x :: q :: r, true)
    else
      let res := insertWalk x q r
      (p :: res.1, res.2)

/-- The list-insertion step of `Insert` in `rsinterface.go` (lines
179-200): prepend when `x.pos` is below the head position, ignore a
duplicate of the head position, otherwise walk.  (In the source the
line's list is never empty; the `[]` case is unreachable.) -/
def lineInsertList (x : Fragment) : List Fragment → List Fragment × Bool
  | [] => ([x], true)
  | h :: t =>
    if x.pos < h.pos then (x :: h :: t, true)
    else if x.pos = h.pos then (h :: t, false)
    else insertWalk x h t

/-- The tail of `Insert` shared by both branches (lines 202-211):
increment `TotalFrag`; lower `MinHop`/`MinHopPeer` when the new hop
count is strictly smaller; when the fragment was new (`flag`),
increment `Cnt` and set its position in `Bit`. -/
def insertTail (line : FragLine) (newHead : List Fragment) (flag : Bool)
    (pos : Fin 256) (hopCnt : Nat) (peerID : String) : FragLine :=
  { line with
    head := newHead
    totalFrag := line.totalFrag + 1
    minHop := if hopCnt < line.minHop then hopCnt else line.minHop
    minHopPeer := if hopCnt < line.minHop then peerID else line.minHopPeer
    cnt := if flag then line.cnt + 1 else line.cnt
    bit := if flag then insert pos.val line.bit else line.bit }

/-- `FragPool.Insert` from `rsinterface.go` (lines 157-212).  Returns the
updated pool and the line's `(Cnt, TotalFrag, IsDecoded)`. -/
def FragPool.Insert (pool : FragPool) (frag : Fragment) (idx : Nat)
    (hopCnt : Nat) (peerID : String) (td : Int) (fragType : Nat) :
    FragPool × Nat × Nat × Nat :=
  let upd :=
    match pool.load idx with
    | none =>
      -- create new line, first insertion decides TD, Bit.Set(frag.pos)
      let line := NewFragLine frag fragType hopCnt peerID
      let line := { line with bit := insert frag.pos.val line.bit, td := td }
      insertTail line line.head true frag.pos hopCnt peerID
    | some line =>
      let step := lineInsertList frag line.head
      insertTail line step.1 step.2 frag.pos hopCnt peerID
  (⟨fun i => if i = idx then some upd else pool.load i⟩,
    upd.cnt, upd.totalFrag, upd.isDecoded)

/-- `FragPool.Clean` from `rsinterface.go`: remove the line. -/
def FragPool.Clean (pool : FragPool) (pos : Nat) : FragPool :=
  ⟨fun i => if i = pos then none else pool.load i⟩

/-- `FragLine.InsertReq` from `rsinterface.go`: prepend a pending
request node, set `IsReqing`, return the previous `IsReqing`. -/
def FragLine.InsertReq (line : FragLine) (bit : Finset Nat)
    (peerID : String) : FragLine × Nat :=
  ({ line with reqHead := ⟨bit, peerID⟩ :: line.reqHead, isReqing := 1 },
    line.isReqing)

/-- `FragLine.SetIsReqing` from `rsinterface.go`: set `IsReqing`,
return the previous value. -/
def FragLine.SetIsReqing (line : FragLine) : FragLine × Nat :=
  ({ line with isReqing := 1 }, line.isReqing)

/-- `FragLine.ClearReq` from `rsinterface.go`: swap the pending list to
empty, reset `IsReqing`, return the old list. -/
def FragLine.ClearReq (line : FragLine) : FragLine × List ReqNode :=
  ({ line with reqHead := [], isReqing := 0 }, line.reqHead)

/-- `Request` from `fragment.go`: `Load *bitset.BitSet`, `ID`. -/
structure Request where
  load : Finset Nat
  id : Nat

/-- `Fragments` from `fragment.go`: a fragment set message. -/
structure Fragments where
  Frags : List Fragment
  ID : Nat
  HopCnt : Nat
  IsResp : Nat

/-- The body of `FragPool.Prepare` from `rsinterface.go` (lines
242-262), acting on a line known to be present: collect, in list
order, the fragments of `head` whose position is in
`line.Bit.Difference(req.Load)`, into a message with `ID = req.ID` and
`IsResp = 1`. -/
def prepareLine (line : FragLine) (req : Request) : Fragments :=
  let bits := line.bit \ req.load
  { Frags := line.head.filter (fun f => f.pos.val ∈ bits)
    ID := req.id
    HopCnt := 0
    IsResp := 1 }

/-- `FragPool.Prepare` from `rsinterface.go`.  When the line is absent
the source dereferences a nil `*FragLine` and panics; that is the
`none` case. -/
def FragPool.Prepare (pool : FragPool) (req : Request) : Option Fragments :=
  match pool.load req.id with
  | none => none
  | some line => some (prepareLine line req)

/-- The strict-ascending-by-position order on fragments. -/
def posLt (a b : Fragment) : Prop := a.pos < b.pos

/-- The per-line invariant: `head` strictly sorted by position, `Bit`
is the set of positions in `head`, `Cnt` counts them, and
`Cnt ≤ TotalFrag`. -/
def LineInv (line : FragLine) : Prop :=
  List.Pairwise posLt line.head ∧
  line.bit = (line.head.map (fun f => f.pos.val)).toFinset ∧
  line.cnt = line.head.length ∧
  line.cnt ≤ line.totalFrag

/-- The pool invariant: every line present satisfies `LineInv`. -/
def PoolInv (pool : FragPool) : Prop :=
  ∀ id line, pool.load id = some line → LineInv line

/-- One `Insert` call's parameters, for iterating sequences of inserts. -/
structure InsOp where
  frag : Fragment
  idx : Nat
  hopCnt : Nat
  peerID : String
  td : Int
  fragType : Nat

/-- Apply a sequence of `Insert` calls to a pool. -/
def applyInserts (ops : List InsOp) (pool : FragPool) : FragPool :=
  ops.foldl
    (fun pl op =>
      (pl.Insert op.frag op.idx op.hopCnt op.peerID op.td op.fragType).1)
    pool

/-- `RSCodec` configuration (`Primitive`, `EccSymbols`, `NumSymbols`),
as in the source's `RSCodec` struct (`rs := RSCodec{Primitive: 0x11d,
EccSymbols: ..., NumSymbols: ...}`). -/
structure RSCodec where
  Primitive : Nat
  EccSymbols : Nat
  NumSymbols : Nat

instance : Zero GF := ⟨⟨0⟩⟩

instance : One GF := ⟨⟨1⟩⟩

/-- Modelled from the spec: GF(2^8) addition is bytewise XOR
(section 4.A; the GF-table builder is not under `src/`). -/
def GF.add (x y : GF) : GF :=
  ⟨⟨x.val.val ^^^ y.val.val, by
    have hx : x.val.val < 256 := x.val.isLt
    have hy : y.val.val < 256 := y.val.isLt
    have := Nat.xor_lt_two_pow (n := 8) (by rw [show (2:Nat) ^ 8 = 256 from by norm_num]; exact hx)
      (by rw [show (2:Nat) ^ 8 = 256 from by norm_num]; exact hy)
    rw [show (2:Nat) ^ 8 = 256 from by norm_num] at this
    exact this⟩⟩

instance : Add GF := ⟨GF.add⟩

/-- In GF(2^8) every element is its own additive inverse. -/
instance : Neg GF := ⟨fun x => x⟩

/-- Modelled from the spec: multiplication by the generator `α = 2`
followed by reduction modulo the primitive polynomial `0x11d`
(section 4.A).  When the shifted value has bit 8 set,
`(2a) xor 0x11d = (2a - 256) xor 0x1d`. -/
def GF.xtime (x : GF) : GF :=
  if h : 2 * x.val.val < 256 then ⟨⟨2 * x.val.val, h⟩⟩
  else
    ⟨⟨(2 * x.val.val - 256) ^^^ 29, by
      have hx : x.val.val < 256 := x.val.isLt
      have h1 : 2 * x.val.val - 256 < 256 := by omega
      have h2 : (29 : Nat) < 2 ^ 8 := by norm_num
      have := Nat.xor_lt_two_pow (n := 8)
        (by rw [show (2:Nat) ^ 8 = 256 from by norm_num]; exact h1) h2
      rw [show (2:Nat) ^ 8 = 256 from by norm_num] at this
      exact this⟩⟩

/-- Modelled from the spec: carry-less multiply-and-reduce, folding over
the bits of the second factor (section 4.A describes the same product
through exp/log tables: `mul(a,b) = exp[log a + log b]`). -/
def GF.mulBits (x : GF) : Nat → Nat → GF
  | _, 0 => 0
  | b, fuel+1 =>
    GF.add (if b % 2 = 1 then x else 0) (GF.mulBits x.xtime (b / 2) fuel)

/-- GF(2^8) multiplication: all 8 bits of the second factor. -/
def GF.mul (x y : GF) : GF := GF.mulBits x y.val.val 8

instance : Mul GF := ⟨GF.mul⟩

/-- Iterated GF multiplication (`pow(a,e)` of the spec, section 4.A). -/
def gfPow (x : GF) : Nat → GF
  | 0 => 1
  | n+1 => x * gfPow x n

/-- Modelled from the spec: `inv(a)` (section 4.A); in GF(2^8),
`a⁻¹ = a^254` (Fermat), computed by a square-and-multiply chain
(`254 = 2 + 4 + 8 + 16 + 32 + 64 + 128`); `0⁻¹ = 0`. -/
def gfInv (x : GF) : GF :=
  let x2 := x * x
  let x4 := x2 * x2
  let x8 := x4 * x4
  let x16 := x8 * x8
  let x32 := x16 * x16
  let x64 := x32 * x32
  let x128 := x64 * x64
  x128 * x64 * x32 * x16 * x8 * x4 * x2

instance : Inv GF := ⟨gfInv⟩

/-- The generator `α = 2` of the spec's GF tables (section 4.A). -/
def alpha : GF := ⟨2⟩

/-- Evaluate a big-endian coefficient list (index 0 is the highest
degree) at a point, by Horner's rule. -/
def polyEval (p : List GF) (a : GF) : GF :=
  p.foldl (fun acc c => acc * a + c) 0

/-- Multiply a big-endian polynomial by `(x + c)` (char 2: `x - c`). -/
def polyMulLin (p : List GF) (c : GF) : List GF :=
  List.zipWith (fun a b => a + b) (p ++ [0]) (0 :: p.map (fun b => b * c))

/-- Modelled from the spec: the generator polynomial
`g(x) = prod (x - α^i) for i in [0,E)` (section 4.B). -/
def genPoly : Nat → List GF
  | 0 => [1]
  | e+1 => polyMulLin (genPoly e) (gfPow alpha e)

/-- One cancellation step of big-endian polynomial long division by a
monic divisor `g`: subtract `c·g` aligned at the front and drop the
vanished leading coefficient. -/
def polyModAux (g : List GF) : Nat → List GF → List GF
  | 0, p => p
  | fuel+1, p =>
    if p.length < g.length then p
    else
      match p with
      | [] => []
      | c :: rest =>
        polyModAux g fuel
          (List.zipWith (fun a b => a + b) rest
            (g.tail.map (fun b => c * b) ++
              List.replicate (rest.length - g.tail.length) 0))

/-- Remainder of big-endian polynomial division by a monic divisor. -/
def polyMod (p g : List GF) : List GF := polyModAux g p.length p

/-- Modelled from the spec: systematic encode of one stripe
(section 4.B): `r(x) = m(x)·x^E mod g(x)`, output `msg ‖ r`.
(The `Encode` of `rscode.go` is not under `src/`.) -/
def rsEncode (E : Nat) (msg : List GF) : List GF :=
  msg ++ polyMod (msg ++ List.replicate E 0) (genPoly E)

/-- Syndrome `S_i = c(α^i)` of a big-endian codeword (section 4.B). -/
def syndrome (word : List GF) (i : Nat) : GF :=
  polyEval word (gfPow alpha i)

/-- Determinant of the top-left `n × n` corner of a function matrix
over GF(2^8), by Laplace expansion along the first column (in
characteristic 2 the cofactor signs all equal 1). -/
def detAux : Nat → (Nat → Nat → GF) → GF
  | 0, _ => 1
  | n+1, M =>
    (List.range (n+1)).foldl
      (fun acc i =>
        acc + M i 0 * detAux n (fun r c => M (if r < i then r else r + 1) (c + 1)))
      0

/-- Solve the `t × t` linear system `M u = s` by Cramer's rule. -/
def cramerSolve (t : Nat) (M : Nat → Nat → GF) (s : Nat → GF) :
    Nat → GF :=
  fun k => (detAux t M)⁻¹ * detAux t (fun r c => if c = k then s r else M r c)

/-- Modelled from the spec: the syndrome erasure decoder of
section 4.B (`Decode` of `rscode.go` is not under `src/`).  Steps: (1)
syndromes; (2) all zero ⇒ return the first `N` symbols; (3) more than
`E` erasures ⇒ fail; (4) erasure correction — the spec's
erasure-locator/Forney step computes the unique solution of the
syndrome linear system at the erased degrees, modelled here by
Cramer's rule on that system; (5) re-evaluate syndromes and succeed
iff all are zero. -/
def rsDecode (N E : Nat) (word : List GF) (errPos : List Nat) :
    List GF × Bool :=
  if (List.range E).all (fun i => decide (syndrome word i = 0)) then
    (word.take N, true)
  else if E < errPos.length then ([], false)
  else
    let t := errPos.length
    let deg : Nat → Nat := fun k => N + E - 1 - errPos.getD k 0
    let M : Nat → Nat → GF := fun i k => gfPow (gfPow alpha (deg k)) i
    let s : Nat → GF := fun i => syndrome word i
    let u := cramerSolve t M s
    let corrected :=
      (List.range t).foldl
        (fun w k =>
          w.set (errPos.getD k 0) (w.getD (errPos.getD k 0) 0 + u k))
        word
    if (List.range E).all (fun i => decide (syndrome corrected i = 0)) then
      (corrected.take N, true)
    else ([], false)

/-- Modelled from the spec: `SplitSubN` (not under `src/`) arranges the
padded byte string as rows of `n` symbols (section 4.C, step 3).  The
fuel argument bounds the recursion depth; `l.length` steps always
suffice since each round consumes `n > 0` symbols. -/
def splitSubNAux (n : Nat) : Nat → List GF → List (List GF)
  | 0, _ => []
  | fuel + 1, l =>
    if l = [] ∨ n = 0 then []
    else l.take n :: splitSubNAux n fuel (l.drop n)

/-- Modelled from the spec: `SplitSubN` with its natural fuel. -/
def SplitSubN (l : List GF) (n : Nat) : List (List GF) :=
  splitSubNAux n l.length l

/-- `RSCodec.DivideAndEncode` from `part_002` (lines 7-30): append the
sentinel byte `1`, zero-pad to a multiple of `NumSymbols`, encode each
row, and emit fragment `i` as column `i` of the row codewords.
(`IntToUint8` is the `mod 256` conversion.) -/
def RSCodec.DivideAndEncode (r : RSCodec) (bytedata : List GF) :
    List Fragment :=
  let data1 := bytedata ++ [1]
  let rmd := data1.length % r.NumSymbols
  let padded :=
    if rmd ≠ 0 then data1 ++ List.replicate (r.NumSymbols - rmd) 0 else data1
  let subs := SplitSubN padded r.NumSymbols
  let rows := subs.map (fun row => rsEncode r.EccSymbols row)
  (List.range (r.NumSymbols + r.EccSymbols)).map (fun i =>
    { pos := ⟨i % 256, Nat.mod_lt _ (by norm_num)⟩
      code := rows.map (fun row => row.getD i 0) })

/-- Outcome of one step of the splice loop: a Go runtime panic, the
poison early return, or the updated state. -/
inductive SpliceStep (α : Type) where
  | panic
  | poison
  | ok (s : α)

/-- The inner `j`-loop of `SpliceAndDecode`'s splice pass (`part_002`
lines 42-48) for one fragment at position `pos`: for each row index
`j`, access `code[j]` (out of range ⇒ panic), compare against the
stored byte when the position was already marked (mismatch ⇒ poison
return), and write the byte into the working matrix. -/
def procRowList (code : List GF) (pos : Nat) (isDup : Bool) :
    List Nat → (Nat → Nat → GF) → SpliceStep (Nat → Nat → GF)
  | [], tmp => .ok tmp
  | j :: js, tmp =>
    match code.get? j with
    | none => .panic
    | some c =>
      if isDup ∧ tmp j pos ≠ c then .poison
      else
        procRowList code pos isDup js
          (fun j2 p2 => if j2 = j ∧ p2 = pos then c else tmp j2 p2)

/-- Working state of the splice pass: the `m × (N+E)` matrix and the
`present` flags. -/
structure SpliceState where
  tmp : Nat → Nat → GF
  flag : Nat → Bool

/-- Process one fragment of the splice pass (`part_002` lines 40-50).
Reading `flag[pos]` with `pos ≥ N+E` is a Go index-out-of-range panic. -/
def procFrag (nTot m : Nat) (st : SpliceState) (f : Fragment) :
    SpliceStep SpliceState :=
  if f.pos.val < nTot then
    match procRowList f.code f.pos.val (st.flag f.pos.val) (List.range m) st.tmp with
    | .panic => .panic
    | .poison => .poison
    | .ok tmp2 =>
      .ok ⟨tmp2, fun p => if p = f.pos.val then true else st.flag p⟩
  else .panic

/-- The splice pass over all fragments (`part_002` lines 40-50). -/
def splicePass (nTot m : Nat) :
    List Fragment → SpliceState → SpliceStep SpliceState
  | [], st => .ok st
  | f :: fs, st =>
    match procFrag nTot m st f with
    | .panic => .panic
    | .poison => .poison
    | .ok st2 => splicePass nTot m fs st2

/-- The row-decoding loop of `SpliceAndDecode` (`part_002` lines
60-73): decode each row, abort (`nil, false`) on the first failure,
otherwise concatenate the decoded symbols.  The endianness probe of
the source (`IsLittleEndian`/`IntToBytes`) extracts the low byte of
each decoded symbol, the identity on byte values. -/
def decodeRowsLoop (N E : Nat) (errPos : List Nat) :
    List (List GF) → Option (List GF)
  | [] => some []
  | row :: rest =>
    let d := rsDecode N E row errPos
    if d.2 = false then none
    else
      match decodeRowsLoop N E errPos rest with
      | none => none
      | some tail => some (d.1 ++ tail)

/-- The index of the last byte equal to the sentinel `1`, as found by
the backwards scan of `part_002` lines 74-80. -/
def lastSentinelIdx (l : List GF) : Option Nat :=
  match l.reverse.findIdx? (fun c => decide (c = (1 : GF))) with
  | none => none
  | some k => some (l.length - 1 - k)

/-- `RSCodec.SpliceAndDecode` from `part_002` (lines 32-85), the live
`([]byte, bool)` version with the poison check, which the pool's
`TryDecode` calls.  `none` models a Go runtime panic
(`dataCode[0]` on an empty slice, `flag[pos]` out of range, `code[j]`
out of range); `some (bytes, ok)` models a normal return, with the
`nil` byte slice modelled as `[]`. -/
def RSCodec.SpliceAndDecode (r : RSCodec) (dataCode : List Fragment) :
    Option (List GF × Bool) :=
  match dataCode with
  | [] => none
  | f0 :: _ =>
    let m := f0.code.length
    let nTot := r.NumSymbols + r.EccSymbols
    match splicePass nTot m dataCode ⟨fun _ _ => 0, fun _ => false⟩ with
    | .panic => none
    | .poison => some ([], false)
    | .ok st =>
      let errPos := (List.range nTot).filter (fun i => st.flag i = false)
      let rows := (List.range m).map (fun j => (List.range nTot).map (st.tmp j))
      match decodeRowsLoop r.NumSymbols r.EccSymbols errPos rows with
      | none => some ([], false)
      | some ret =>
        match lastSentinelIdx ret with
        | none => some ([], false)
        | some i => some (ret.take i, true)

/-- `FragPool.TryDecode` from `rsinterface.go` (lines 222-239):
snapshot the line's fragments, bump `Trial`, call `SpliceAndDecode`,
latch `IsDecoded` on success.  A missing line (`pool.Load[pos].head`
on a nil entry) and a panic inside the codec are both `none`. -/
def FragPool.TryDecode (pool : FragPool) (pos : Nat) (rs : RSCodec) :
    Option (FragPool × List GF × Bool) :=
  match pool.load pos with
  | none => none
  | some line =>
    let data := line.head
    let line2 := { line with trial := line.trial + 1 }
    match rs.SpliceAndDecode data with
    | none => none
    | some (res, flag) =>
      let line3 := if flag then { line2 with isDecoded := 1 } else line2
      some (⟨fun i => if i = pos then some line3 else pool.load i⟩, res, flag)

/-- `minFragNum` from `handler.go` (line 65): distinct-count threshold
that triggers decode. -/
def minFragNum : Nat := 40

/-- `maxTotalFrag` from `handler.go` (line 68). -/
def maxTotalFrag : Nat := 80

/-- `upperRequestNum` from `handler.go` (line 71). -/
def upperRequestNum : Nat := 5

/-- `maxDecodeNum` from `handler.go` (line 74). -/
def maxDecodeNum : Nat := 1024

/-- `PeerFragsNum` from `handler.go` (line 77): fragments per peer in
a broadcast window. -/
def PeerFragsNum : Nat := 8

/-- Outcome of the request-message path: the line is gone (logged and
skipped), the reply is deferred (pool updated by `InsertReq`, with an
optional recursive upstream request `(bitmap, peer)`), or a response
message is produced immediately. -/
inductive RequestOutcome where
  | dropped
  | deferred (pool : FragPool) (upstream : Option (Finset Nat × String))
  | replied (frags : Option Fragments)

/-- The `RequestTxFragMsg` / `RequestBlockFragMsg` path of `handleMsg`
(`handler.go` lines 777-813 and 816-851): look up the line (missing ⇒
drop); let `merge = req.load ∪ line.Bit`; if `merge.Count() <
upperRequestNum`, `InsertReq(req.load, peer)` and, exactly when the
previous `IsReqing` was 0, launch `requestFragsByBitmap` carrying
`merge` toward `line.MinHopPeer`; otherwise reply immediately with
`Prepare`. -/
def handleRequestFragMsg (pool : FragPool) (req : Request)
    (peerID : String) : RequestOutcome :=
  match pool.load req.id with
  | none => .dropped
  | some line =>
    let merge := req.load ∪ line.bit
    if merge.card < upperRequestNum then
      let r := line.InsertReq req.load peerID
      .deferred ⟨fun i => if i = req.id then some r.1 else pool.load i⟩
        (if r.2 = 0 then some (merge, line.minHopPeer) else none)
    else
      .replied (pool.Prepare req)

/-- The `IsResp = 1` branch of the fragment-message paths of
`handleMsg` (`handler.go` lines 617-641 and 750-775): the source reads
`line, _ := pm.fragpool.Load[frags.ID]` ignoring the `ok` flag and
then calls `line.ClearReq()`; on a missing line this dereferences a
nil pointer — modelled as `none`.  Otherwise the pending list is
cleared and returned (each entry is then answered via `Prepare`). -/
def handleFragResponse (pool : FragPool) (id : Nat) :
    Option (FragPool × List ReqNode) :=
  match pool.load id with
  | none => none
  | some line =>
    let r := line.ClearReq
    some (⟨fun i => if i = id then some r.1 else pool.load i⟩, r.2)

/-- The windowed peer walk shared by the broadcast loops
(`handler.go`, e.g. lines 1365-1390 and 1455-1480): per peer, if the
next window `[q·idx, q·(idx+1))` would run past the fragment count,
re-shuffle the index permutation (the shuffles are an oracle
`reshuffle`) and restart at index 0; the peer receives the window of
`q` permutation entries.  Returns the windows, one per peer. -/
def windowWalk (q numFrags : Nat) (reshuffle : Nat → List Nat) :
    Nat → List Nat → Nat → Nat → List (List Nat)
  | 0, _, _, _ => []
  | n+1, perm, idx, sc =>
    if q * (idx + 1) > numFrags then
      let perm2 := reshuffle sc
      perm2.take q :: windowWalk q numFrags reshuffle n perm2 1 (sc + 1)
    else
      (perm.drop (q * idx)).take q ::
        windowWalk q numFrags reshuffle n perm (idx + 1) sc

/-- `BroadcastTxFrags` from `handler.go` (lines 1341-1393): when the
fragment count is below `PeerFragsNum` every peer is sent the whole
set (no windows; modelled `none`); otherwise each peer gets a window
of `PeerFragsNum` indices of the permutation of
`[0, len(frags.Frags))`. -/
def BroadcastTxFrags (frags : List Fragment) (numPeers : Nat)
    (reshuffle : Nat → List Nat) : Option (List (List Nat)) :=
  if frags.length < PeerFragsNum then none
  else
    some (windowWalk PeerFragsNum frags.length reshuffle numPeers
      (List.range frags.length) 0 0)

/-- `BroadcastMyBlockFrags` from `handler.go` (lines 1433-1482).  Note
the source sets the per-peer window to `peerFragsNum := minFragNum`
(40), not `PeerFragsNum` (8). -/
def BroadcastMyBlockFrags (frags : List Fragment) (numPeers : Nat)
    (reshuffle : Nat → List Nat) : Option (List (List Nat)) :=
  if frags.length < minFragNum then none
  else
    some (windowWalk minFragNum frags.length reshuffle numPeers
      (List.range frags.length) 0 0)

/-- Extract the state of an `ok` splice step (used to name intermediate
states in concrete evaluations). -/
def SpliceStep.okD {α : Type} (s : SpliceStep α) (d : α) : α :=
  match s with
  | .ok x => x
  | _ => d

/-- Abstract view of the splice working state: the partial map from
position to the last code written there. -/
def SpliceInv (m : Nat) (st : SpliceState) (pmap : Nat → Option (List GF)) : Prop :=
  (∀ p, st.flag p = (pmap p).isSome) ∧
  (∀ p c, pmap p = some c → c.length = m) ∧
  (∀ p c, pmap p = some c → ∀ j, j < m → st.tmp j p = c.getD j 0)

/-- Total abstract view of the splice working state: the matrix byte at
row `j`, position `p` is the `j`-th byte of the code recorded for `p`,
and `0` where no fragment has been spliced (the zero initialisation of
`tmp` in `part_002` line 36). -/
def SpliceInvZ (m : Nat) (st : SpliceState) (pmap : Nat → Option (List GF)) : Prop :=
  (∀ p, st.flag p = (pmap p).isSome) ∧
  (∀ p c, pmap p = some c → c.length = m) ∧
  (∀ j p, j < m → st.tmp j p = ((pmap p).getD []).getD j 0)

/-- The position-to-code map produced by splicing a list of fragments
in order. -/
def pmapIns (P : List Fragment) (pmap : Nat → Option (List GF)) :
    Nat → Option (List GF) :=
  P.foldl (fun pm f => fun p => if p = f.pos.val then some f.code else pm p) pmap

/-! ## Theorems -/

/-- C3: inserting the same fragment twice into an empty pool leaves
`Cnt` at 1, `TotalFrag` at 2, and `Bit` holding exactly that position —
for every position, in particular the one at the head of the line. -/
theorem insert_same_fragment_twice (frag : Fragment) (idx : Nat)
    (h1 h2 : Nat) (p1 p2 : String) (t1 t2 : Int) (ty1 ty2 : Nat) :
    let r1 := NewFragPool.Insert frag idx h1 p1 t1 ty1
    let r2 := r1.1.Insert frag idx h2 p2 t2 ty2
    r2.2.1 = 1 ∧ r2.2.2.1 = 2 ∧
      Option.map FragLine.bit (r2.1.load idx) = some {frag.pos.val} := by
  simp [FragPool.Insert, NewFragPool, NewFragLine, insertTail, lineInsertList]

/-- Specification of `insertWalk` on a strictly sorted list whose head
is below the inserted position: either a duplicate is found (list
unchanged), or the fragment is spliced in keeping the list sorted. -/
theorem insertWalk_spec (x : Fragment) :
    ∀ (p : Fragment) (rest : List Fragment), p.pos < x.pos →
    List.Pairwise posLt (p :: rest) →
    ((insertWalk x p rest).2 = false →
      (insertWalk x p rest).1 = p :: rest ∧ x.pos ∈ rest.map Fragment.pos) ∧
    ((insertWalk x p rest).2 = true →
      List.Pairwise posLt (insertWalk x p rest).1 ∧
      List.Perm ((insertWalk x p rest).1.map Fragment.pos) (x.pos :: p.pos :: rest.map Fragment.pos) ∧
      x.pos ∉ p.pos :: rest.map Fragment.pos) := by
  intro p rest
  induction rest generalizing p with
  | nil =>
    intro hpx _
    refine ⟨by simp [insertWalk], fun _ => ?_⟩
    refine ⟨?_, ?_, ?_⟩
    · simp [insertWalk, posLt, List.pairwise_cons, hpx]
    · simp only [insertWalk, List.map_cons, List.map_nil]
      exact List.Perm.swap _ _ _
    · simp only [insertWalk, List.map_nil, List.mem_singleton]
      exact fun h => absurd (h ▸ hpx) (lt_irrefl _)
  | cons q r ih =>
    intro hpx hpair
    have hqr : List.Pairwise posLt (q :: r) := hpair.tail
    have hpall : ∀ f ∈ q :: r, posLt p f := (List.pairwise_cons.mp hpair).1
    have hqall : ∀ f ∈ r, posLt q f := (List.pairwise_cons.mp hqr).1
    by_cases heq : x.pos = q.pos
    · refine ⟨fun _ => ⟨by simp [insertWalk, heq], ?_⟩, fun hf => ?_⟩
      · simp only [List.map_cons, List.mem_cons]
        exact Or.inl heq
      · simp [insertWalk, heq] at hf
    · by_cases hlt : x.pos < q.pos
      · constructor
        · intro hf
          simp [insertWalk, heq, hlt] at hf
        · intro _
          refine ⟨?_, ?_, ?_⟩
          · simp only [insertWalk, if_neg heq, if_pos hlt]
            refine List.pairwise_cons.mpr ⟨?_, List.pairwise_cons.mpr ⟨?_, hqr⟩⟩
            · intro f hf
              rcases List.mem_cons.mp hf with h | h
              · rw [posLt, h]; exact hpx
              · exact hpall f h
            · intro f hf
              rcases List.mem_cons.mp hf with h | h
              · rw [posLt, h]; exact hlt
              · exact lt_trans hlt (hqall f h)
          · simp only [insertWalk, if_neg heq, if_pos hlt, List.map_cons]
            exact List.Perm.swap _ _ _
          · intro hmem
            rcases List.mem_cons.mp hmem with h | h
            · exact absurd (h ▸ hpx) (lt_irrefl _)
            · rcases List.mem_cons.mp h with h2 | h2
              · exact heq h2
              · rcases List.mem_map.mp h2 with ⟨f, hf, hfx⟩
                have hup := hqall f hf
                rw [posLt, hfx] at hup
                exact absurd (lt_trans hlt hup) (lt_irrefl _)
      · have hqx : q.pos < x.pos :=
          lt_of_le_of_ne (not_lt.mp hlt) (fun h => heq h.symm)
        have hrec := ih q hqx hqr
        have hwalk : insertWalk x p (q :: r) =
            (p :: (insertWalk x q r).1, (insertWalk x q r).2) := by
          simp [insertWalk, heq, hlt]
        constructor
        · intro hf
          rw [hwalk] at hf ⊢
          simp only at hf
          obtain ⟨h1, h2⟩ := hrec.1 hf
          refine ⟨by rw [h1], ?_⟩
          simp only [List.map_cons, List.mem_cons]
          right
          exact h2
        · intro ht
          rw [hwalk] at ht ⊢
          simp only at ht
          obtain ⟨hpw, hperm, hnm⟩ := hrec.2 ht
          refine ⟨?_, ?_, ?_⟩
          · refine List.pairwise_cons.mpr ⟨?_, hpw⟩
            intro f hf
            have h1 : f.pos ∈ (insertWalk x q r).1.map Fragment.pos :=
              List.mem_map_of_mem _ hf
            have h2 : f.pos ∈ x.pos :: q.pos :: r.map Fragment.pos :=
              hperm.mem_iff.mp h1
            rcases List.mem_cons.mp h2 with h | h
            · rw [posLt, h]; exact hpx
            · rcases List.mem_cons.mp h with h3 | h3
              · rw [posLt, h3]
                exact hpall q (List.mem_cons_self _ _)
              · rcases List.mem_map.mp h3 with ⟨g, hg, hgx⟩
                have := hpall g (List.mem_cons_of_mem _ hg)
                rw [posLt, ← hgx]
                exact this
          · simp only [List.map_cons]
            exact List.Perm.trans (List.Perm.cons _ hperm) (List.Perm.swap _ _ _)
          · intro hmem
            rcases List.mem_cons.mp hmem with h | h
            · exact absurd (h ▸ hpx) (lt_irrefl _)
            · exact hnm h

/-- Specification of `lineInsertList` on a strictly sorted list:
either the position is a duplicate (list unchanged) or the fragment is
spliced in, keeping the list strictly sorted by position. -/
theorem lineInsertList_spec (x : Fragment) (l : List Fragment)
    (hl : List.Pairwise posLt l) :
    ((lineInsertList x l).2 = false →
      (lineInsertList x l).1 = l ∧ x.pos ∈ l.map Fragment.pos) ∧
    ((lineInsertList x l).2 = true →
      List.Pairwise posLt (lineInsertList x l).1 ∧
      List.Perm ((lineInsertList x l).1.map Fragment.pos) (x.pos :: l.map Fragment.pos) ∧
      x.pos ∉ l.map Fragment.pos) := by
  cases l with
  | nil =>
    refine ⟨fun hf => ?_, fun _ => ?_⟩
    · simp [lineInsertList] at hf
    · simp [lineInsertList]
  | cons h t =>
    by_cases hlt : x.pos < h.pos
    · refine ⟨fun hf => ?_, fun _ => ?_⟩
      · simp [lineInsertList, hlt] at hf
      · have hall : ∀ f ∈ t, posLt h f := (List.pairwise_cons.mp hl).1
        refine ⟨?_, ?_, ?_⟩
        · simp only [lineInsertList, if_pos hlt]
          refine List.pairwise_cons.mpr ⟨?_, hl⟩
          intro f hf
          rcases List.mem_cons.mp hf with he | he
          · rw [posLt, he]; exact hlt
          · exact lt_trans hlt (hall f he)
        · simp [lineInsertList, hlt]
        · intro hmem
          rcases List.mem_cons.mp hmem with he | he
          · exact absurd (he ▸ hlt) (lt_irrefl _)
          · rcases List.mem_map.mp he with ⟨g, hg, hgx⟩
            have := hall g hg
            rw [posLt, hgx] at this
            exact absurd (lt_trans hlt this) (lt_irrefl _)
    · by_cases heq : x.pos = h.pos
      · refine ⟨fun _ => ⟨by simp [lineInsertList, hlt, heq], ?_⟩, fun ht => ?_⟩
        · simp only [List.map_cons, List.mem_cons]
          exact Or.inl heq
        · simp [lineInsertList, hlt, heq] at ht
      · have hhx : h.pos < x.pos :=
          lt_of_le_of_ne (not_lt.mp hlt) (fun hc => heq hc.symm)
        have hw : lineInsertList x (h :: t) = insertWalk x h t := by
          simp [lineInsertList, hlt, heq]
        have hs := insertWalk_spec x h t hhx hl
        rw [hw]
        simp only [List.map_cons]
        refine ⟨fun hf => ?_, fun ht2 => ?_⟩
        · obtain ⟨h1, h2⟩ := hs.1 hf
          exact ⟨h1, List.mem_cons_of_mem _ h2⟩
        · exact hs.2 ht2

theorem poolInv_new : PoolInv NewFragPool := by
  intro id line h
  simp [NewFragPool] at h

/-- `Insert` preserves the pool invariant. -/
theorem insert_preserves_poolInv (pool : FragPool) (frag : Fragment)
    (idx : Nat) (hopCnt : Nat) (peerID : String) (td : Int)
    (fragType : Nat) (hinv : PoolInv pool) :
    PoolInv (pool.Insert frag idx hopCnt peerID td fragType).1 := by
  intro id line hl
  simp only [FragPool.Insert] at hl
  by_cases hid : id = idx
  · subst hid
    rw [if_pos rfl] at hl
    cases hpl : pool.load id with
    | none =>
      rw [hpl] at hl
      simp only [Option.some.injEq] at hl
      subst hl
      refine ⟨?_, ?_, ?_, ?_⟩ <;>
        simp [NewFragLine, insertTail, posLt]
    | some old =>
      rw [hpl] at hl
      simp only [Option.some.injEq] at hl
      subst hl
      have hold := hinv id old hpl
      obtain ⟨hsort, hbit, hcnt, hle⟩ := hold
      have hspec := lineInsertList_spec frag old.head hsort
      cases hflag : (lineInsertList frag old.head).2 with
      | false =>
        obtain ⟨hsame, _⟩ := hspec.1 hflag
        refine ⟨?_, ?_, ?_, ?_⟩
        · simpa [insertTail, hflag, hsame] using hsort
        · simp [insertTail, hflag, hsame, hbit]
        · simp [insertTail, hflag, hsame, hcnt]
        · simp only [insertTail, hflag, Bool.false_eq_true, if_false]
          omega
      | true =>
        obtain ⟨hsort2, hperm, hnm⟩ := hspec.2 hflag
        refine ⟨?_, ?_, ?_, ?_⟩
        · simpa [insertTail, hflag] using hsort2
        · simp only [insertTail, hflag, if_pos]
          have hv : ((lineInsertList frag old.head).1.map (fun f => f.pos.val)).toFinset
              = (frag.pos.val :: old.head.map (fun f => f.pos.val)).toFinset := by
            apply List.toFinset_eq_of_perm
            have := hperm.map (fun p : Fin 256 => p.val)
            simpa [List.map_map, Function.comp] using this
          rw [hbit, hv]
          simp [List.toFinset_cons]
        · have hlen : (lineInsertList frag old.head).1.length
              = old.head.length + 1 := by
            have := hperm.length_eq
            simpa [List.length_map] using this
          simp [insertTail, hflag, hcnt, hlen]
        · simp only [insertTail, hflag, if_pos]
          exact Nat.succ_le_succ hle
  · rw [if_neg hid] at hl
    exact hinv id line hl

theorem applyInserts_poolInv (ops : List InsOp) (pool : FragPool)
    (h : PoolInv pool) : PoolInv (applyInserts ops pool) := by
  induction ops generalizing pool with
  | nil => exact h
  | cons op rest ih =>
    exact ih _ (insert_preserves_poolInv pool op.frag op.idx op.hopCnt
      op.peerID op.td op.fragType h)

/-- C4: after every sequence of `Insert` calls starting from the empty
pool, every line's `head` is strictly ascending in position with no
repeated position, `popcount(bit) = distinct_count`, and
`distinct_count ≤ total_received`. -/
theorem insert_sequence_invariant (ops : List InsOp) (id : Nat)
    (line : FragLine)
    (h : (applyInserts ops NewFragPool).load id = some line) :
    List.Pairwise posLt line.head ∧
    (line.head.map (fun f => f.pos.val)).Nodup ∧
    line.bit.card = line.cnt ∧
    line.cnt ≤ line.totalFrag := by
  have hinv := applyInserts_poolInv ops NewFragPool poolInv_new id line h
  obtain ⟨hsort, hbit, hcnt, hle⟩ := hinv
  have hnodup : (line.head.map (fun f => f.pos.val)).Nodup := by
    have : List.Pairwise (fun a b : Nat => a < b)
        (line.head.map (fun f => f.pos.val)) := by
      apply List.Pairwise.map
      intro a b hab
      exact hab
      exact hsort
    exact this.nodup
  refine ⟨hsort, hnodup, ?_, hle⟩
  rw [hbit, List.toFinset_card_of_nodup hnodup, hcnt, List.length_map]

theorem insert_sequence_invariant_witness :
    List.Pairwise posLt
      (FragLine.head ⟨[⟨3, []⟩, ⟨5, []⟩], {5, 3}, 1, "p", 2, 2, 0, 17, 0, 0, 0, []⟩) ∧
    ((FragLine.head ⟨[⟨3, []⟩, ⟨5, []⟩], {5, 3}, 1, "p", 2, 2, 0, 17, 0, 0, 0, []⟩).map
      (fun f => f.pos.val)).Nodup ∧
    (FragLine.bit ⟨[⟨3, []⟩, ⟨5, []⟩], {5, 3}, 1, "p", 2, 2, 0, 17, 0, 0, 0, []⟩).card =
      FragLine.cnt ⟨[⟨3, []⟩, ⟨5, []⟩], {5, 3}, 1, "p", 2, 2, 0, 17, 0, 0, 0, []⟩ ∧
    FragLine.cnt ⟨[⟨3, []⟩, ⟨5, []⟩], {5, 3}, 1, "p", 2, 2, 0, 17, 0, 0, 0, []⟩ ≤
      FragLine.totalFrag ⟨[⟨3, []⟩, ⟨5, []⟩], {5, 3}, 1, "p", 2, 2, 0, 17, 0, 0, 0, []⟩ :=
  insert_sequence_invariant
    [⟨⟨3, []⟩, 7, 1, "p", 0, 17⟩, ⟨⟨5, []⟩, 7, 2, "q", 0, 17⟩] 7
    ⟨[⟨3, []⟩, ⟨5, []⟩], {5, 3}, 1, "p", 2, 2, 0, 17, 0, 0, 0, []⟩ (by rfl)

/-- C5: for a request on an existing line, `Prepare` returns a message
whose fragments are exactly those of the line with position in
`line.bit \ req.load`, with `ID = req.id` and `IsResp = 1`. -/
theorem prepare_respects_bitmap (pool : FragPool) (req : Request)
    (line : FragLine) (h : pool.load req.id = some line) :
    pool.Prepare req = some (prepareLine line req) ∧
    (prepareLine line req).ID = req.id ∧
    (prepareLine line req).IsResp = 1 ∧
    ∀ f, f ∈ (prepareLine line req).Frags ↔
      f ∈ line.head ∧ f.pos.val ∈ line.bit \ req.load := by
  refine ⟨?_, rfl, rfl, ?_⟩
  · simp [FragPool.Prepare, h]
  · intro f
    simp [prepareLine, List.mem_filter]

theorem prepare_respects_bitmap_witness :
    (let pool := (NewFragPool.Insert ⟨3, []⟩ 5 0 "p" 0 17).1
     let req : Request := ⟨{2, 3}, 5⟩
     let line : FragLine := ⟨[⟨3, []⟩], {3}, 0, "p", 1, 1, 0, 17, 0, 0, 0, []⟩
     pool.Prepare req = some (prepareLine line req) ∧
     (prepareLine line req).ID = req.id ∧
     (prepareLine line req).IsResp = 1 ∧
     ∀ f, f ∈ (prepareLine line req).Frags ↔
       f ∈ line.head ∧ f.pos.val ∈ line.bit \ req.load) :=
  prepare_respects_bitmap (NewFragPool.Insert ⟨3, []⟩ 5 0 "p" 0 17).1
    ⟨{2, 3}, 5⟩ ⟨[⟨3, []⟩], {3}, 0, "p", 1, 1, 0, 17, 0, 0, 0, []⟩ (by rfl)

/-- `procRowList` without a conflict: when every row index is within
the code and, if comparing, the stored bytes agree with the code, the
loop completes and writes the code bytes at `pos`. -/
theorem procRowList_ok (code : List GF) (pos : Nat) (isDup : Bool) :
    ∀ (js : List Nat) (tmp : Nat → Nat → GF),
    (∀ j ∈ js, j < code.length) →
    (isDup = true → ∀ j ∈ js, tmp j pos = code.getD j 0) →
    ∃ tmp2, procRowList code pos isDup js tmp = .ok tmp2 ∧
      (∀ j p, p ≠ pos → tmp2 j p = tmp j p) ∧
      (∀ j ∈ js, tmp2 j pos = code.getD j 0) ∧
      (∀ j, j ∉ js → tmp2 j pos = tmp j pos) := by
  intro js
  induction js with
  | nil =>
    intro tmp _ _
    exact ⟨tmp, rfl, fun _ _ _ => rfl, fun j hj => absurd hj (List.not_mem_nil j),
      fun _ _ => rfl⟩
  | cons j js ih =>
    intro tmp hlen hdup
    have hj : j < code.length := hlen j (List.mem_cons_self _ _)
    have hc : code.get? j = some (code.getD j 0) := by
      rw [List.getD_eq_getElem?_getD, List.get?_eq_getElem?]
      simp [List.getElem?_eq_getElem hj]
    set c : GF := code.getD j 0 with hcd0
    have hcd : c = code.getD j 0 := hcd0
    have hnocmp : ¬(isDup = true ∧ tmp j pos ≠ c) := by
      rintro ⟨hd, hne⟩
      exact hne (by rw [hdup hd j (List.mem_cons_self _ _), hcd])
    have hstep : procRowList code pos isDup (j :: js) tmp =
        procRowList code pos isDup js
          (fun j2 p2 => if j2 = j ∧ p2 = pos then c else tmp j2 p2) := by
      simp only [procRowList, hc]
      rw [if_neg hnocmp]
    set tmp1 : Nat → Nat → GF :=
      fun j2 p2 => if j2 = j ∧ p2 = pos then c else tmp j2 p2 with htmp1
    have hlen2 : ∀ j2 ∈ js, j2 < code.length := fun j2 h => hlen j2 (List.mem_cons_of_mem _ h)
    have hdup2 : isDup = true → ∀ j2 ∈ js, tmp1 j2 pos = code.getD j2 0 := by
      intro hd j2 h2
      by_cases hje : j2 = j
      · simp [htmp1, hje, hcd]
      · simp only [htmp1, hje, false_and, if_false]
        exact hdup hd j2 (List.mem_cons_of_mem _ h2)
    obtain ⟨tmp2, heq, hoth, hin, hout⟩ := ih tmp1 hlen2 hdup2
    refine ⟨tmp2, by rw [hstep]; exact heq, ?_, ?_, ?_⟩
    · intro j2 p hp
      rw [hoth j2 p hp]
      simp [htmp1, hp]
    · intro j2 h2
      rcases List.mem_cons.mp h2 with he | he
      · subst he
        by_cases hjs : j2 ∈ js
        · exact hin j2 hjs
        · rw [hout j2 hjs]
          simp [htmp1, hcd]
      · exact hin j2 he
    · intro j2 h2
      have hne : j2 ≠ j := fun hc2 => h2 (hc2 ▸ List.mem_cons_self _ _)
      have hns : j2 ∉ js := fun hc2 => h2 (List.mem_cons_of_mem _ hc2)
      rw [hout j2 hns]
      simp [htmp1, hne]

/-- `procRowList` with a genuine conflict: comparing against stored
bytes that differ from the code at some in-range row aborts with the
poison result. -/
theorem procRowList_poison (code : List GF) (pos : Nat) (stored : List GF) :
    ∀ (js : List Nat) (tmp : Nat → Nat → GF),
    (∀ j ∈ js, j < code.length) →
    (∀ j ∈ js, tmp j pos = stored.getD j 0) →
    (∃ j ∈ js, stored.getD j 0 ≠ code.getD j 0) →
    procRowList code pos true js tmp = .poison := by
  intro js
  induction js with
  | nil =>
    intro tmp _ _ hconf
    obtain ⟨j, hj, _⟩ := hconf
    exact absurd hj (List.not_mem_nil j)
  | cons j js ih =>
    intro tmp hlen hstore hconf
    have hj : j < code.length := hlen j (List.mem_cons_self _ _)
    have hc : code.get? j = some (code.getD j 0) := by
      rw [List.getD_eq_getElem?_getD, List.get?_eq_getElem?]
      simp [List.getElem?_eq_getElem hj]
    set c : GF := code.getD j 0 with hcd0
    have hcd : c = code.getD j 0 := hcd0
    by_cases hne : stored.getD j 0 ≠ code.getD j 0
    · have hx : tmp j pos ≠ c := by
        rw [hstore j (List.mem_cons_self _ _), hcd]
        exact hne
      simp only [procRowList, hc]
      rw [if_pos ⟨trivial, hx⟩]
    · push_neg at hne
      have hnocmp : ¬(True ∧ tmp j pos ≠ c) := by
        rintro ⟨_, hx⟩
        exact hx (by rw [hstore j (List.mem_cons_self _ _), hcd, hne])
      have hstep : procRowList code pos true (j :: js) tmp =
          procRowList code pos true js
            (fun j2 p2 => if j2 = j ∧ p2 = pos then c else tmp j2 p2) := by
        simp only [procRowList, hc]
        rw [if_neg hnocmp]
      rw [hstep]
      obtain ⟨j0, hj0, hj0ne⟩ := hconf
      have hj0js : j0 ∈ js := by
        rcases List.mem_cons.mp hj0 with he | he
        · subst he
          exact absurd hne hj0ne
        · exact he
      apply ih
      · exact fun j2 h => hlen j2 (List.mem_cons_of_mem _ h)
      · intro j2 h2
        by_cases hje : j2 = j
        · subst hje
          show (if j2 = j2 ∧ pos = pos then c else tmp j2 pos) = stored.getD j2 0
          rw [if_pos ⟨rfl, rfl⟩, hcd, ← hne]
        · simp only [hje, false_and, if_false]
          exact hstore j2 (List.mem_cons_of_mem _ h2)
      · exact ⟨j0, hj0js, hj0ne⟩

/-- Processing one well-formed fragment whose code agrees with
anything already stored at its position succeeds and records its code. -/
theorem procFrag_ok (nTot m : Nat) (st : SpliceState)
    (pmap : Nat → Option (List GF)) (f : Fragment)
    (hinv : SpliceInv m st pmap) (hpos : f.pos.val < nTot)
    (hlen : f.code.length = m)
    (hcons : ∀ c, pmap f.pos.val = some c → c = f.code) :
    ∃ st2, procFrag nTot m st f = .ok st2 ∧
      SpliceInv m st2
        (fun p => if p = f.pos.val then some f.code else pmap p) := by
  obtain ⟨hA, hB, hC⟩ := hinv
  have hjs : ∀ j ∈ List.range m, j < f.code.length := by
    intro j hj
    rw [hlen]
    exact List.mem_range.mp hj
  have hdup : st.flag f.pos.val = true →
      ∀ j ∈ List.range m, st.tmp j f.pos.val = f.code.getD j 0 := by
    intro hfl j hj
    rw [hA] at hfl
    cases hp : pmap f.pos.val with
    | none => rw [hp] at hfl; simp at hfl
    | some c =>
      have hc := hcons c hp
      subst hc
      exact hC _ _ hp j (List.mem_range.mp hj)
  obtain ⟨tmp2, heq, hoth, hin, hout⟩ :=
    procRowList_ok f.code f.pos.val (st.flag f.pos.val) (List.range m)
      st.tmp hjs hdup
  refine ⟨⟨tmp2, fun p => if p = f.pos.val then true else st.flag p⟩, ?_, ?_, ?_, ?_⟩
  · simp only [procFrag, if_pos hpos, heq]
  · intro p
    by_cases hp : p = f.pos.val <;> simp [hp, hA]
  · intro p c hc
    simp only at hc
    by_cases hp : p = f.pos.val
    · rw [if_pos hp] at hc
      cases hc
      exact hlen
    · rw [if_neg hp] at hc
      exact hB p c hc
  · intro p c hc j hj
    simp only at hc
    by_cases hp : p = f.pos.val
    · rw [if_pos hp] at hc
      cases hc
      subst hp
      exact hin j (List.mem_range.mpr (hlen ▸ hj))
    · rw [if_neg hp] at hc
      show tmp2 j p = c.getD j 0
      rw [hoth j p hp]
      exact hC p c hc j hj

/-- Processing a well-formed fragment that conflicts with the stored
code at its position yields the poison result. -/
theorem procFrag_poison (nTot m : Nat) (st : SpliceState)
    (pmap : Nat → Option (List GF)) (f : Fragment)
    (hinv : SpliceInv m st pmap) (hpos : f.pos.val < nTot)
    (hlen : f.code.length = m) (c : List GF)
    (hc : pmap f.pos.val = some c) (hne : c ≠ f.code) :
    procFrag nTot m st f = .poison := by
  obtain ⟨hA, hB, hC⟩ := hinv
  have hflag : st.flag f.pos.val = true := by
    rw [hA, hc]
    rfl
  have hclen : c.length = m := hB _ _ hc
  have hconf : ∃ j ∈ List.range m, c.getD j 0 ≠ f.code.getD j 0 := by
    by_contra hno
    push_neg at hno
    apply hne
    apply List.ext_getElem (by rw [hclen, hlen])
    intro j h1 h2
    have hjm : j < m := by rw [← hclen]; exact h1
    have := hno j (List.mem_range.mpr hjm)
    rwa [List.getD_eq_getElem?_getD, List.getD_eq_getElem?_getD,
      List.getElem?_eq_getElem h1, List.getElem?_eq_getElem h2] at this
  have hpoison := procRowList_poison f.code f.pos.val c (List.range m) st.tmp
    (fun j hj => hlen ▸ List.mem_range.mp hj)
    (fun j hj => hC _ _ hc j (List.mem_range.mp hj)) hconf
  simp only [procFrag, if_pos hpos, hflag, hpoison]

/-- The splice pass detects every conflict: if the fragment list (or
the pre-existing state) contains two different codes for one position,
the pass returns the poison result. -/
theorem splicePass_poison (nTot m : Nat) :
    ∀ (P : List Fragment) (st : SpliceState) (pmap : Nat → Option (List GF)),
    SpliceInv m st pmap →
    (∀ f ∈ P, f.pos.val < nTot ∧ f.code.length = m) →
    ((∃ f ∈ P, ∃ g ∈ P, f.pos = g.pos ∧ f.code ≠ g.code) ∨
     (∃ f ∈ P, ∃ c, pmap f.pos.val = some c ∧ c ≠ f.code)) →
    splicePass nTot m P st = .poison := by
  intro P
  induction P with
  | nil =>
    intro st pmap _ _ hconf
    rcases hconf with ⟨f, hf, _⟩ | ⟨f, hf, _⟩ <;> exact absurd hf (List.not_mem_nil f)
  | cons h rest ih =>
    intro st pmap hinv hwf hconf
    have hh := hwf h (List.mem_cons_self _ _)
    by_cases hdup : ∃ c, pmap h.pos.val = some c ∧ c ≠ h.code
    · obtain ⟨c, hc, hne⟩ := hdup
      have := procFrag_poison nTot m st pmap h hinv hh.1 hh.2 c hc hne
      simp only [splicePass, this]
    · push_neg at hdup
      obtain ⟨st2, hok, hinv2⟩ :=
        procFrag_ok nTot m st pmap h hinv hh.1 hh.2 (fun c hc => hdup c hc)
      have hwf2 : ∀ f ∈ rest, f.pos.val < nTot ∧ f.code.length = m :=
        fun f hf => hwf f (List.mem_cons_of_mem _ hf)
      have hstep : splicePass nTot m (h :: rest) st = splicePass nTot m rest st2 := by
        simp only [splicePass, hok]
      rw [hstep]
      apply ih st2 _ hinv2 hwf2
      set pmap2 : Nat → Option (List GF) :=
        fun p => if p = h.pos.val then some h.code else pmap p with hpmap2
      rcases hconf with ⟨f, hf, g, hg, hfg, hne⟩ | ⟨f, hf, c, hc, hne⟩
      · rcases List.mem_cons.mp hf with hfh | hfr
        · rcases List.mem_cons.mp hg with hgh | hgr
          · exact absurd (hfh ▸ hgh ▸ rfl) hne
          · right
            refine ⟨g, hgr, h.code, ?_, ?_⟩
            · have : g.pos.val = h.pos.val := by rw [← hfg, hfh]
              simp [hpmap2, this]
            · rw [hfh] at hne
              exact fun hgc => hne (hgc ▸ rfl)
        · rcases List.mem_cons.mp hg with hgh | hgr
          · right
            refine ⟨f, hfr, h.code, ?_, ?_⟩
            · have : f.pos.val = h.pos.val := by rw [hfg, hgh]
              simp [hpmap2, this]
            · rw [hgh] at hne
              exact fun hfc => hne hfc.symm
          · left
            exact ⟨f, hfr, g, hgr, hfg, hne⟩
      · rcases List.mem_cons.mp hf with hfh | hfr
        · subst hfh
          exact absurd (hdup c hc) hne
        · right
          by_cases hp : f.pos.val = h.pos.val
          · refine ⟨f, hfr, h.code, by simp [hpmap2, hp], ?_⟩
            cases hph : pmap h.pos.val with
            | none => rw [hp] at hc; rw [hph] at hc; cases hc
            | some c2 =>
              have hc2 := hdup c2 hph
              rw [hp, hph] at hc
              cases hc
              rw [← hc2]
              exact hne
          · exact ⟨f, hfr, c, by simp [hpmap2, hp, hc], hne⟩

/-- C2: any fragment list holding two fragments with equal position
but different (equal-length, in-range) codes makes `SpliceAndDecode`
return `(nil, ok = false)` — the poison early return of `part_002`
lines 43-45. -/
theorem splice_poison_detected (r : RSCodec) (dataCode : List Fragment)
    (hwf : ∀ fr ∈ dataCode, fr.pos.val < r.NumSymbols + r.EccSymbols ∧
      fr.code.length = (dataCode.headD ⟨0, []⟩).code.length)
    (f g : Fragment) (hf : f ∈ dataCode) (hg : g ∈ dataCode)
    (hpos : f.pos = g.pos) (hcode : f.code ≠ g.code) :
    r.SpliceAndDecode dataCode = some ([], false) := by
  cases dataCode with
  | nil => exact absurd hf (List.not_mem_nil f)
  | cons f0 rest =>
    have hinv0 : SpliceInv f0.code.length
        ⟨fun _ _ => 0, fun _ => false⟩ (fun _ => none) := by
      refine ⟨fun _ => rfl, ?_, ?_⟩ <;> intro p c hc <;> simp at hc
    have hpass := splicePass_poison (r.NumSymbols + r.EccSymbols)
      f0.code.length (f0 :: rest) ⟨fun _ _ => 0, fun _ => false⟩ (fun _ => none)
      hinv0 (by simpa using hwf)
      (Or.inl ⟨f, hf, g, hg, hpos, hcode⟩)
    simp only [RSCodec.SpliceAndDecode, hpass]

theorem splice_poison_detected_witness :
    RSCodec.SpliceAndDecode ⟨285, 1, 1⟩ [⟨0, [⟨1⟩]⟩, ⟨0, [⟨2⟩]⟩] =
      some ([], false) :=
  splice_poison_detected ⟨285, 1, 1⟩ [⟨0, [⟨1⟩]⟩, ⟨0, [⟨2⟩]⟩]
    (by decide) ⟨0, [⟨1⟩]⟩ ⟨0, [⟨2⟩]⟩ (by decide) (by decide)
    rfl (by decide)

/-- C6: on a request for a present line, with `merge = req.load ∪
line.bit`: below `upperRequestNum` the handler defers — it runs
`InsertReq` (prepending the pending node and setting the latch) and
launches the recursive upstream request carrying `merge` toward
`min_hop_peer` exactly when `IsReqing` was previously 0; otherwise it
replies immediately with the result of `Prepare`. -/
theorem handle_request_defer_or_reply (pool : FragPool) (req : Request)
    (peerID : String) (line : FragLine)
    (h : pool.load req.id = some line) :
    ((req.load ∪ line.bit).card < upperRequestNum →
      handleRequestFragMsg pool req peerID =
        .deferred
          ⟨fun i => if i = req.id then some (line.InsertReq req.load peerID).1
            else pool.load i⟩
          (if line.isReqing = 0 then
            some (req.load ∪ line.bit, line.minHopPeer) else none) ∧
      (line.InsertReq req.load peerID).1.reqHead =
        ⟨req.load, peerID⟩ :: line.reqHead ∧
      (line.InsertReq req.load peerID).1.isReqing = 1 ∧
      (line.InsertReq req.load peerID).2 = line.isReqing) ∧
    (upperRequestNum ≤ (req.load ∪ line.bit).card →
      handleRequestFragMsg pool req peerID =
        .replied (some (prepareLine line req))) := by
  constructor
  · intro hlt
    refine ⟨?_, rfl, rfl, rfl⟩
    simp only [handleRequestFragMsg, h, if_pos hlt]
    rfl
  · intro hge
    simp only [handleRequestFragMsg, h, if_neg (not_lt.mpr hge),
      FragPool.Prepare, h]

theorem handle_request_defer_or_reply_witness :
    (let pool := (NewFragPool.Insert ⟨3, []⟩ 5 0 "p" 0 17).1
     let req : Request := ⟨{1}, 5⟩
     let line : FragLine := ⟨[⟨3, []⟩], {3}, 0, "p", 1, 1, 0, 17, 0, 0, 0, []⟩
     ((req.load ∪ line.bit).card < upperRequestNum →
       handleRequestFragMsg pool req "q" =
         .deferred
           ⟨fun i => if i = req.id then some (line.InsertReq req.load "q").1
             else pool.load i⟩
           (if line.isReqing = 0 then
             some (req.load ∪ line.bit, line.minHopPeer) else none) ∧
       (line.InsertReq req.load "q").1.reqHead =
         ⟨req.load, "q"⟩ :: line.reqHead ∧
       (line.InsertReq req.load "q").1.isReqing = 1 ∧
       (line.InsertReq req.load "q").2 = line.isReqing) ∧
     (upperRequestNum ≤ (req.load ∪ line.bit).card →
       handleRequestFragMsg pool req "q" =
         .replied (some (prepareLine line req)))) :=
  handle_request_defer_or_reply (NewFragPool.Insert ⟨3, []⟩ 5 0 "p" 0 17).1
    ⟨{1}, 5⟩ "q" ⟨[⟨3, []⟩], {3}, 0, "p", 1, 1, 0, 17, 0, 0, 0, []⟩ (by rfl)

/-- C9 (code-bug evidence): a line inserted and then evicted; the
`IsResp = 1` path (`line, _ := Load[id]; line.ClearReq()`), the
`TryDecode` path (`pool.Load[pos].head`), and `Prepare` all
dereference the missing line — a Go nil-pointer panic (`none`) — where
the spec requires logging and skipping. -/
theorem missing_line_dereference_panics :
    (let pool := ((NewFragPool.Insert ⟨3, []⟩ 5 0 "p" 0 17).1).Clean 5
     handleFragResponse pool 5 = none ∧
     pool.TryDecode 5 ⟨285, 200, 40⟩ = none ∧
     pool.Prepare ⟨∅, 5⟩ = none) :=
  ⟨rfl, rfl, rfl⟩

/-- C8 (code-bug evidence): a fragment with position outside
`[0, N+E)` makes `SpliceAndDecode` panic at the `flag[pos]` access
(first conjunct), and a fragment whose code is shorter than the first
fragment's makes it panic at the `code[j]` access (second conjunct) —
instead of returning `ok = false`. -/
theorem splice_invalid_fragment_panics :
    RSCodec.SpliceAndDecode ⟨285, 1, 1⟩ [⟨5, [⟨0⟩]⟩] = none ∧
    RSCodec.SpliceAndDecode ⟨285, 1, 1⟩ [⟨0, [⟨0⟩, ⟨0⟩]⟩, ⟨1, [⟨0⟩]⟩] = none := by
  constructor <;> rfl

/-- C7 (counterexample): a block broadcast of 80 fragments — at least
`PeerFragsNum = 8` of them — hands the first peer a window of 40
indices, not `PeerFragsNum`: `BroadcastMyBlockFrags` sets its window
size to `minFragNum`. -/
theorem block_broadcast_window_not_peerFragsNum :
    BroadcastMyBlockFrags (List.replicate 80 ⟨0, []⟩) 1
        (fun _ => List.range 80) = some [List.range 40] ∧
      (List.range 40).length ≠ PeerFragsNum := by
  constructor
  · rfl
  · decide

/-- Every window produced by the walk consists of `q` distinct
indices, given that the permutations really permute
`[0, numFrags)` and `q` fits. -/
theorem windowWalk_spec (q numFrags : Nat) (reshuffle : Nat → List Nat)
    (hqn : q ≤ numFrags)
    (hres : ∀ k, List.Perm (reshuffle k) (List.range numFrags)) :
    ∀ (n : Nat) (perm : List Nat) (idx sc : Nat),
      List.Perm perm (List.range numFrags) → q * idx ≤ numFrags →
      ∀ w ∈ windowWalk q numFrags reshuffle n perm idx sc,
        w.length = q ∧ w.Nodup := by
  intro n
  induction n with
  | zero =>
    intro perm idx sc _ _ w hw
    simp [windowWalk] at hw
  | succ n ih =>
    intro perm idx sc hperm hidx w hw
    have hplen : perm.length = numFrags := by
      rw [hperm.length_eq, List.length_range]
    have hpnd : perm.Nodup := hperm.nodup_iff.mpr (List.nodup_range _)
    by_cases hover : q * (idx + 1) > numFrags
    · rw [windowWalk, if_pos hover] at hw
      have hslen : (reshuffle sc).length = numFrags := by
        rw [(hres sc).length_eq, List.length_range]
      have hsnd : (reshuffle sc).Nodup :=
        (hres sc).nodup_iff.mpr (List.nodup_range _)
      rcases List.mem_cons.mp hw with he | he
      · subst he
        refine ⟨?_, hsnd.sublist (List.take_sublist _ _)⟩
        rw [List.length_take, hslen]
        omega
      · exact ih (reshuffle sc) 1 (sc + 1) (hres sc) (by omega) w he
    · rw [windowWalk, if_neg hover] at hw
      push_neg at hover
      rcases List.mem_cons.mp hw with he | he
      · subst he
        refine ⟨?_, (hpnd.sublist (List.drop_sublist _ _)).sublist
          (List.take_sublist _ _)⟩
        rw [List.length_take, List.length_drop, hplen]
        have : q * idx + q = q * (idx + 1) := by ring
        omega
      · exact ih perm (idx + 1) sc hperm hover w he

/-- C7 (amended): the tx broadcast walk hands each peer a window of
exactly `PeerFragsNum = 8` distinct indices, while the block broadcast
walk (`BroadcastMyBlockFrags`) hands each peer a window of exactly
`minFragNum = 40` distinct indices; in both, the permutation is
re-shuffled and the walk restarted from index 0 exactly when the next
window would run past the end. -/
theorem broadcast_window_sizes (frags : List Fragment) (numPeers : Nat)
    (reshuffle : Nat → List Nat)
    (hres : ∀ k, List.Perm (reshuffle k) (List.range frags.length)) :
    (∀ ws, BroadcastTxFrags frags numPeers reshuffle = some ws →
      ∀ w ∈ ws, w.length = PeerFragsNum ∧ w.Nodup) ∧
    (∀ ws, BroadcastMyBlockFrags frags numPeers reshuffle = some ws →
      ∀ w ∈ ws, w.length = minFragNum ∧ w.Nodup) ∧
    (∀ (q n : Nat) (perm : List Nat) (idx sc : Nat),
      q * (idx + 1) > frags.length →
      windowWalk q frags.length reshuffle (n + 1) perm idx sc =
        (reshuffle sc).take q ::
          windowWalk q frags.length reshuffle n (reshuffle sc) 1 (sc + 1)) := by
  refine ⟨?_, ?_, ?_⟩
  · intro ws hws
    simp only [BroadcastTxFrags] at hws
    by_cases hlt : frags.length < PeerFragsNum
    · rw [if_pos hlt] at hws
      cases hws
    · rw [if_neg hlt] at hws
      cases hws
      exact windowWalk_spec PeerFragsNum frags.length reshuffle
        (not_lt.mp hlt) hres numPeers (List.range frags.length) 0 0
        (List.Perm.refl _) (by simp)
  · intro ws hws
    simp only [BroadcastMyBlockFrags] at hws
    by_cases hlt : frags.length < minFragNum
    · rw [if_pos hlt] at hws
      cases hws
    · rw [if_neg hlt] at hws
      cases hws
      exact windowWalk_spec minFragNum frags.length reshuffle
        (not_lt.mp hlt) hres numPeers (List.range frags.length) 0 0
        (List.Perm.refl _) (by simp)
  · intro q n perm idx sc hover
    rw [windowWalk, if_pos hover]

theorem broadcast_window_sizes_witness :
    ((∀ ws, BroadcastTxFrags (List.replicate 80 (⟨0, []⟩ : Fragment)) 3
        (fun _ => List.range 80) = some ws →
      ∀ w ∈ ws, w.length = PeerFragsNum ∧ w.Nodup) ∧
    (∀ ws, BroadcastMyBlockFrags (List.replicate 80 (⟨0, []⟩ : Fragment)) 3
        (fun _ => List.range 80) = some ws →
      ∀ w ∈ ws, w.length = minFragNum ∧ w.Nodup) ∧
    (∀ (q n : Nat) (perm : List Nat) (idx sc : Nat),
      q * (idx + 1) > (List.replicate 80 (⟨0, []⟩ : Fragment)).length →
      windowWalk q (List.replicate 80 (⟨0, []⟩ : Fragment)).length
          (fun _ => List.range 80) (n + 1) perm idx sc =
        ((fun _ => List.range 80) sc).take q ::
          windowWalk q (List.replicate 80 (⟨0, []⟩ : Fragment)).length
            (fun _ => List.range 80) n ((fun _ => List.range 80) sc) 1 (sc + 1))) :=
  broadcast_window_sizes (List.replicate 80 ⟨0, []⟩) 3 (fun _ => List.range 80)
    (fun _ => by rw [List.length_replicate])

/-- C10: when the splice pass succeeds, every row decodes
successfully, and the concatenated decoded bytes contain no sentinel
byte `0x01`, `SpliceAndDecode` returns `(nil, false)` — the backwards
scan runs off the front (`i < 0`) and the source reports failure
rather than slicing out of range. -/
theorem splice_no_sentinel_reports_failure (r : RSCodec) (f0 : Fragment)
    (fs : List Fragment) (st : SpliceState) (ret : List GF)
    (hpass : splicePass (r.NumSymbols + r.EccSymbols) f0.code.length
      (f0 :: fs) ⟨fun _ _ => 0, fun _ => false⟩ = .ok st)
    (hrows : decodeRowsLoop r.NumSymbols r.EccSymbols
      ((List.range (r.NumSymbols + r.EccSymbols)).filter
        (fun i => st.flag i = false))
      ((List.range f0.code.length).map
        (fun j => (List.range (r.NumSymbols + r.EccSymbols)).map (st.tmp j)))
      = some ret)
    (hno : (1 : GF) ∉ ret) :
    r.SpliceAndDecode (f0 :: fs) = some ([], false) := by
  have hsent : lastSentinelIdx ret = none := by
    have hfind : ret.reverse.findIdx? (fun c => decide (c = (1 : GF))) = none := by
      rw [List.findIdx?_eq_none_iff]
      intro x hx
      have : x ∈ ret := List.mem_reverse.mp hx
      simp only [decide_eq_false_iff_not]
      exact fun he => hno (he ▸ this)
    simp only [lastSentinelIdx, hfind]
  simp only [RSCodec.SpliceAndDecode, hpass, hrows, hsent]

theorem splice_no_sentinel_reports_failure_witness :
    RSCodec.SpliceAndDecode ⟨285, 0, 1⟩ [⟨0, [⟨0⟩]⟩] = some ([], false) :=
  splice_no_sentinel_reports_failure ⟨285, 0, 1⟩ ⟨0, [⟨0⟩]⟩ []
    ((splicePass (1 + 0) 1 [⟨0, [⟨0⟩]⟩]
      ⟨fun _ _ => 0, fun _ => false⟩).okD ⟨fun _ _ => 0, fun _ => false⟩)
    [⟨0⟩] rfl rfl (by decide)

/-! ### The field structure of GF(2^8)

The executable operations above are made into a `Field` instance by
transferring associativity, commutativity and distributivity of the
carry-less product along an additive embedding into the quotient ring
`(ZMod 2)[X] / (X^8 + X^4 + X^3 + X^2 + 1)`. -/

theorem GF.val_injective : Function.Injective GF.val := by
  intro a b h
  cases a
  cases b
  simpa using h

theorem GF.ext_val {a b : GF} (h : a.val.val = b.val.val) : a = b :=
  GF.val_injective (Fin.ext h)

theorem GF.add_val (x y : GF) : (x + y).val.val = x.val.val ^^^ y.val.val := rfl

instance : AddCommGroup GF where
  add := (· + ·)
  add_assoc a b c := GF.ext_val (by
    simp only [GF.add_val]
    exact Nat.xor_assoc _ _ _)
  zero := 0
  zero_add a := GF.ext_val (by
    simp only [GF.add_val]
    show 0 ^^^ a.val.val = a.val.val
    exact Nat.zero_xor _)
  add_zero a := GF.ext_val (by
    simp only [GF.add_val]
    show a.val.val ^^^ 0 = a.val.val
    exact Nat.xor_zero _)
  nsmul := nsmulRec
  zsmul := zsmulRec
  neg := fun x => x
  neg_add_cancel a := GF.ext_val (by
    show a.val.val ^^^ a.val.val = 0
    exact Nat.xor_self _)
  add_comm a b := GF.ext_val (by
    simp only [GF.add_val]
    exact Nat.xor_comm _ _)

/-- The primitive polynomial `0x11d = x^8 + x^4 + x^3 + x^2 + 1` over
GF(2), used by the source configuration (`Primitive: 0x11d`). -/
noncomputable def p8 : Polynomial (ZMod 2) :=
  Polynomial.X ^ 8 +
    (Polynomial.X ^ 4 + Polynomial.X ^ 3 + Polynomial.X ^ 2 + 1)

theorem p8_monic : p8.Monic := by
  unfold p8
  apply Polynomial.monic_X_pow_add
  have h4 : (Polynomial.X ^ 4 + Polynomial.X ^ 3 + Polynomial.X ^ 2 + 1 :
      Polynomial (ZMod 2)).degree ≤ 4 := by
    compute_degree
  exact lt_of_le_of_lt h4 (by norm_num)

theorem p8_natDegree : p8.natDegree = 8 := by
  unfold p8
  compute_degree!

/-- The quotient ring `(ZMod 2)[X] / (p8)`; the ring axioms of the
GF(2^8) product are transferred from here. -/
abbrev R8 := AdjoinRoot p8

/-- The class of `X` in the quotient. -/
noncomputable def r8 : R8 := AdjoinRoot.root p8

theorem r8_pow_eight :
    r8 ^ 8 + (r8 ^ 4 + r8 ^ 3 + r8 ^ 2 + 1) = 0 := by
  have h := AdjoinRoot.eval₂_root p8
  simpa [r8, p8] using h

theorem r8_char_two (r : R8) : r + r = 0 := by
  have h2 : (2 : ZMod 2) = 0 := by decide
  calc r + r = (2 : ZMod 2) • r := by rw [two_smul]
    _ = 0 := by rw [h2, zero_smul]

/-- The bit `i` of a byte, as an element of GF(2). -/
def bitc (v i : Nat) : ZMod 2 := if v.testBit i then 1 else 0

/-- The additive embedding of the table-built GF(2^8) into `R8`:
a byte maps to the polynomial with its bits as coefficients. -/
noncomputable def phi (x : GF) : R8 :=
  ∑ i ∈ Finset.range 8, bitc x.val.val i • r8 ^ i

theorem bitc_xor (a b i : Nat) :
    bitc (a ^^^ b) i = bitc a i + bitc b i := by
  simp only [bitc, Nat.testBit_xor]
  cases ha : a.testBit i <;> cases hb : b.testBit i <;> simp <;> decide

theorem phi_add (x y : GF) : phi (x + y) = phi x + phi y := by
  simp only [phi, GF.add_val, ← Finset.sum_add_distrib]
  refine Finset.sum_congr rfl (fun i _ => ?_)
  rw [bitc_xor, add_smul]

theorem phi_zero : phi 0 = 0 := by
  have h0 : ∀ i, bitc (0 : GF).val.val i = 0 := by
    intro i
    show bitc 0 i = 0
    simp [bitc, Nat.zero_testBit]
  simp [phi, h0]

theorem phi_zero_gf : phi ⟨0⟩ = 0 := phi_zero

theorem phi_one : phi 1 = 1 := by
  have hb : ∀ i, bitc (1 : GF).val.val i = if i = 0 then 1 else 0 := by
    intro i
    show bitc 1 i = _
    cases i with
    | zero => rfl
    | succ n =>
      simp only [bitc, Nat.testBit_succ]
      norm_num
  simp only [phi, hb, ite_smul, one_smul, zero_smul]
  rw [Finset.sum_ite_eq' (Finset.range 8) 0 (fun i => r8 ^ i)]
  simp

theorem r8_mul_phi (x : GF) :
    r8 * phi x = ∑ i ∈ Finset.range 8, bitc x.val.val i • r8 ^ (i + 1) := by
  rw [phi, Finset.mul_sum]
  refine Finset.sum_congr rfl (fun i _ => ?_)
  rw [mul_smul_comm, pow_succ, mul_comm (r8 ^ i) r8]

theorem r8_pow_eight_eq : r8 ^ 8 = r8 ^ 4 + r8 ^ 3 + r8 ^ 2 + 1 := by
  have h := r8_pow_eight
  have h2 := r8_char_two (r8 ^ 4 + r8 ^ 3 + r8 ^ 2 + 1)
  calc r8 ^ 8 = r8 ^ 8 + ((r8 ^ 4 + r8 ^ 3 + r8 ^ 2 + 1) +
        (r8 ^ 4 + r8 ^ 3 + r8 ^ 2 + 1)) := by rw [h2, add_zero]
    _ = (r8 ^ 8 + (r8 ^ 4 + r8 ^ 3 + r8 ^ 2 + 1)) +
        (r8 ^ 4 + r8 ^ 3 + r8 ^ 2 + 1) := by ring
    _ = r8 ^ 4 + r8 ^ 3 + r8 ^ 2 + 1 := by rw [h, zero_add]

theorem bitc_29_sum :
    (∑ i ∈ Finset.range 8, bitc 29 i • r8 ^ i) =
      r8 ^ 4 + r8 ^ 3 + r8 ^ 2 + 1 := by
  have e0 : bitc 29 0 = 1 := by decide
  have e1 : bitc 29 1 = 0 := by decide
  have e2 : bitc 29 2 = 1 := by decide
  have e3 : bitc 29 3 = 1 := by decide
  have e4 : bitc 29 4 = 1 := by decide
  have e5 : bitc 29 5 = 0 := by decide
  have e6 : bitc 29 6 = 0 := by decide
  have e7 : bitc 29 7 = 0 := by decide
  simp only [Finset.sum_range_succ, Finset.sum_range_zero, e0, e1, e2, e3,
    e4, e5, e6, e7, one_smul, zero_smul, zero_add, add_zero]
  ring

set_option maxRecDepth 4000 in
theorem phi_xtime (x : GF) : phi x.xtime = r8 * phi x := by
  have hv : x.val.val < 256 := x.val.isLt
  by_cases h : 2 * x.val.val < 256
  · have hx7 : x.val.val.testBit 7 = false := by
      apply Nat.testBit_lt_two_pow
      omega
    have hxt : x.xtime.val.val = 2 * x.val.val := by
      simp [GF.xtime, h]
    have hb0 : bitc x.xtime.val.val 0 = 0 := by
      simp [bitc, hxt, Nat.testBit_zero]
    have hbs : ∀ i, bitc x.xtime.val.val (i + 1) = bitc x.val.val i := by
      intro i
      simp only [bitc, hxt, Nat.testBit_succ]
      rw [Nat.mul_div_cancel_left _ (by norm_num : (0:Nat) < 2)]
    have hA1 : phi x.xtime =
        ∑ i ∈ Finset.range 7, bitc x.val.val i • r8 ^ (i + 1) := by
      rw [phi, Finset.sum_range_succ', hb0, zero_smul, add_zero]
      exact Finset.sum_congr rfl (fun i _ => by rw [hbs])
    have hr1 : r8 * phi x =
        ∑ i ∈ Finset.range 7, bitc x.val.val i • r8 ^ (i + 1) := by
      rw [r8_mul_phi, Finset.sum_range_succ,
        show bitc x.val.val 7 = 0 from by simp [bitc, hx7], zero_smul, add_zero]
    rw [hA1, hr1]
  · have h128 : 128 ≤ x.val.val := by omega
    have hx7 : x.val.val.testBit 7 = true := by
      have hd : ∀ w, w < 256 → 128 ≤ w → w.testBit 7 = true := by decide
      exact hd _ hv h128
    have hxt : x.xtime.val.val = (2 * x.val.val - 256) ^^^ 29 := by
      simp [GF.xtime, h]
    have hbit : ∀ w, w < 256 → 128 ≤ w →
        ((2 * w - 256).testBit 0 = false ∧
         ∀ i, i < 7 → (2 * w - 256).testBit (i + 1) = w.testBit i) := by
      decide
    obtain ⟨hb0, hbs⟩ := hbit _ hv h128
    have hsplit : phi x.xtime =
        (∑ i ∈ Finset.range 8, bitc (2 * x.val.val - 256) i • r8 ^ i) +
        (∑ i ∈ Finset.range 8, bitc 29 i • r8 ^ i) := by
      rw [phi, ← Finset.sum_add_distrib]
      refine Finset.sum_congr rfl (fun i _ => ?_)
      rw [hxt, bitc_xor, add_smul]
    have hA : (∑ i ∈ Finset.range 8, bitc (2 * x.val.val - 256) i • r8 ^ i) =
        ∑ i ∈ Finset.range 7, bitc x.val.val i • r8 ^ (i + 1) := by
      rw [Finset.sum_range_succ']
      have hz : bitc (2 * x.val.val - 256) 0 = 0 := by simp [bitc, hb0]
      rw [hz, zero_smul, add_zero]
      refine Finset.sum_congr rfl (fun i hi => ?_)
      rw [show bitc (2 * x.val.val - 256) (i + 1) = bitc x.val.val i from by
        simp [bitc, hbs i (Finset.mem_range.mp hi)]]
    have hr : r8 * phi x =
        (∑ i ∈ Finset.range 7, bitc x.val.val i • r8 ^ (i + 1)) + r8 ^ 8 := by
      rw [r8_mul_phi, Finset.sum_range_succ]
      rw [show bitc x.val.val 7 = 1 from by simp [bitc, hx7], one_smul]
    rw [hsplit, hA, bitc_29_sum, hr, r8_pow_eight_eq]

theorem phi_ite (c : Prop) [Decidable c] (x : GF) :
    phi (if c then x else 0) = if c then phi x else 0 := by
  by_cases h : c <;> simp [h, phi_zero]

theorem phi_mulBits (k : Nat) :
    ∀ (x : GF) (b : Nat),
      phi (GF.mulBits x b k) =
        (∑ i ∈ Finset.range k, bitc b i • r8 ^ i) * phi x := by
  induction k with
  | zero =>
    intro x b
    simp [GF.mulBits, phi_zero]
  | succ k ih =>
    intro x b
    show phi (GF.add (if b % 2 = 1 then x else 0) (GF.mulBits x.xtime (b / 2) k)) = _
    have hadd : phi (GF.add (if b % 2 = 1 then x else 0)
        (GF.mulBits x.xtime (b / 2) k)) =
        phi (if b % 2 = 1 then x else 0) + phi (GF.mulBits x.xtime (b / 2) k) :=
      phi_add _ _
    rw [hadd, phi_ite, ih x.xtime (b / 2), phi_xtime]
    have hshift : ∀ i, bitc (b / 2) i = bitc b (i + 1) := by
      intro i
      simp [bitc, Nat.testBit_succ]
    have hbit0 : (if b % 2 = 1 then phi x else 0) = bitc b 0 • phi x := by
      by_cases hb : b % 2 = 1
      · rw [if_pos hb]
        have : bitc b 0 = 1 := by
          simp [bitc, Nat.testBit_zero, hb]
        rw [this, one_smul]
      · rw [if_neg hb]
        have : bitc b 0 = 0 := by
          simp [bitc, Nat.testBit_zero, hb]
        rw [this, zero_smul]
    have hmain : (∑ i ∈ Finset.range k, bitc (b / 2) i • r8 ^ i) *
        (r8 * phi x) =
        (∑ i ∈ Finset.range k, bitc b (i + 1) • r8 ^ (i + 1)) * phi x := by
      rw [Finset.sum_mul, Finset.sum_mul]
      refine Finset.sum_congr rfl (fun i _ => ?_)
      rw [hshift, smul_mul_assoc, smul_mul_assoc, pow_succ, mul_comm (r8 ^ i) r8]
      ring
    rw [hmain, hbit0]
    rw [Finset.sum_range_succ', add_mul]
    have h0 : bitc b 0 • r8 ^ 0 * phi x = bitc b 0 • phi x := by
      rw [pow_zero, smul_mul_assoc, one_mul]
    rw [h0, add_comm]

theorem phi_mul (x y : GF) : phi (x * y) = phi y * phi x := by
  show phi (GF.mulBits x y.val.val 8) = _
  rw [phi_mulBits 8 x y.val.val]
  rfl

theorem phi_eq_zero {z : GF} (h : phi z = 0) : z = 0 := by
  have hLI := (AdjoinRoot.powerBasis p8_monic.ne_zero).basis.linearIndependent
  rw [Fintype.linearIndependent_iff] at hLI
  have hdim : (AdjoinRoot.powerBasis p8_monic.ne_zero).dim = 8 := by
    simp [AdjoinRoot.powerBasis, p8_natDegree]
  have hsum : (∑ i : Fin (AdjoinRoot.powerBasis p8_monic.ne_zero).dim,
      bitc z.val.val i.val • (AdjoinRoot.powerBasis p8_monic.ne_zero).basis i) = 0 := by
    have hb : ∀ i : Fin (AdjoinRoot.powerBasis p8_monic.ne_zero).dim,
        bitc z.val.val i.val • (AdjoinRoot.powerBasis p8_monic.ne_zero).basis i =
        bitc z.val.val i.val • r8 ^ (i.val) := by
      intro i
      rw [PowerBasis.coe_basis]
      rfl
    rw [Finset.sum_congr rfl (fun i _ => hb i)]
    rw [Fin.sum_univ_eq_sum_range (fun j => bitc z.val.val j • r8 ^ j), hdim]
    exact h
  have hg := hLI (fun i => bitc z.val.val i.val) hsum
  apply GF.ext_val
  show z.val.val = 0
  apply Nat.eq_of_testBit_eq
  intro i
  rw [Nat.zero_testBit]
  by_cases hi : i < 8
  · have hgi := hg ⟨i, by rw [hdim]; exact hi⟩
    simp only [bitc] at hgi
    by_cases ht : z.val.val.testBit i
    · rw [if_pos ht] at hgi
      exact absurd hgi one_ne_zero
    · simpa using ht
  · apply Nat.testBit_lt_two_pow
    have : (256 : Nat) ≤ 2 ^ i := by
      calc (256 : Nat) = 2 ^ 8 := by norm_num
        _ ≤ 2 ^ i := Nat.pow_le_pow_right (by norm_num) (by omega)
    omega

theorem gf_add_self (a : GF) : a + a = 0 := by
  have h := neg_add_cancel a
  exact h

theorem phi_injective : Function.Injective phi := by
  intro x y h
  have hz : phi (x + y) = 0 := by
    rw [phi_add, h]
    exact r8_char_two _
  have hxy : x + y = 0 := phi_eq_zero hz
  calc x = x + (y + y) := by rw [gf_add_self, add_zero]
    _ = (x + y) + y := by rw [add_assoc]
    _ = y := by rw [hxy, zero_add]

instance : CommRing GF where
  __ := (inferInstance : AddCommGroup GF)
  mul := (· * ·)
  one := 1
  mul_assoc a b c := phi_injective (by
    rw [phi_mul, phi_mul, phi_mul, phi_mul]
    ring)
  one_mul a := phi_injective (by rw [phi_mul, phi_one, mul_one])
  mul_one a := phi_injective (by rw [phi_mul, phi_one, one_mul])
  left_distrib a b c := phi_injective (by
    rw [phi_mul, phi_add, phi_add, phi_mul, phi_mul]
    ring)
  right_distrib a b c := phi_injective (by
    rw [phi_mul, phi_add, phi_add, phi_mul, phi_mul]
    ring)
  zero_mul a := phi_injective (by rw [phi_mul, phi_zero, mul_zero])
  mul_zero a := phi_injective (by rw [phi_mul, phi_zero, zero_mul])
  mul_comm a b := phi_injective (by
    rw [phi_mul, phi_mul]
    exact mul_comm _ _)

instance : Fintype GF :=
  Fintype.ofEquiv (Fin 256) ⟨fun v => ⟨v⟩, fun g => g.val, fun _ => rfl, fun _ => rfl⟩

set_option maxRecDepth 8000 in
set_option maxHeartbeats 4000000 in
theorem gf_mul_inv : ∀ a : GF, a ≠ 0 → a * a⁻¹ = 1 := by decide

instance : Field GF where
  inv := Inv.inv
  mul_inv_cancel a h := gf_mul_inv a h
  inv_zero := by decide
  exists_pair_ne := ⟨0, 1, by decide⟩
  nnqsmul := _
  qsmul := _

theorem alpha_15_x : alpha ^ 15 = ⟨38⟩ := by decide

set_option maxRecDepth 4000 in
theorem alpha_255 : alpha ^ 255 = 1 := by
  have h : (255 : Nat) = 15 * 17 := by norm_num
  rw [h, pow_mul, alpha_15_x]
  decide

set_option maxRecDepth 4000 in
theorem alpha_pow_div_primes :
    alpha ^ 85 ≠ 1 ∧ alpha ^ 51 ≠ 1 ∧ alpha ^ 15 ≠ 1 := by
  refine ⟨?_, ?_, ?_⟩ <;> decide

theorem div255 (p : Nat) (hp : p.Prime) (hdvd : p ∣ 255) :
    p = 3 ∨ p = 5 ∨ p = 17 := by
  have hmem : p ∈ Nat.divisors 255 := Nat.mem_divisors.mpr ⟨hdvd, by norm_num⟩
  have hdiv : Nat.divisors 255 = {1, 3, 5, 15, 17, 51, 85, 255} := by decide
  rw [hdiv] at hmem
  fin_cases hmem
  · exact absurd hp (by norm_num)
  · exact Or.inl rfl
  · exact Or.inr (Or.inl rfl)
  · exact absurd hp (by norm_num)
  · exact Or.inr (Or.inr rfl)
  · exact absurd hp (by norm_num)
  · exact absurd hp (by norm_num)
  · exact absurd hp (by norm_num)

/-- The generator `α = 2` has multiplicative order 255 in GF(2^8). -/
theorem alpha_order : orderOf (alpha : GF) = 255 := by
  apply orderOf_eq_of_pow_and_pow_div_prime (by norm_num) alpha_255
  intro p hp hdvd
  rcases div255 p hp hdvd with h | h | h <;> subst h
  · exact alpha_pow_div_primes.1
  · exact alpha_pow_div_primes.2.1
  · exact alpha_pow_div_primes.2.2

theorem alpha_ne_zero : (alpha : GF) ≠ 0 := by decide

/-- Powers of `α` with exponents below 255 are pairwise distinct. -/
theorem alpha_pow_inj (a b : Nat) (ha : a < 255) (hb : b < 255)
    (h : alpha ^ a = alpha ^ b) : a = b := by
  rcases le_total a b with hab | hab
  · by_contra hne
    have hlt : 0 < b - a := by omega
    have hpow : alpha ^ a * alpha ^ (b - a) = alpha ^ a * 1 := by
      rw [mul_one, ← pow_add, Nat.add_sub_cancel' hab, h]
    have h1 : alpha ^ (b - a) = 1 :=
      mul_left_cancel₀ (pow_ne_zero a alpha_ne_zero) hpow
    have hdvd : 255 ∣ (b - a) := alpha_order ▸ orderOf_dvd_of_pow_eq_one h1
    have := Nat.eq_zero_of_dvd_of_lt hdvd (by omega)
    omega
  · by_contra hne
    have hlt : 0 < a - b := by omega
    have hpow : alpha ^ b * alpha ^ (a - b) = alpha ^ b * 1 := by
      rw [mul_one, ← pow_add, Nat.add_sub_cancel' hab, h]
    have h1 : alpha ^ (a - b) = 1 :=
      mul_left_cancel₀ (pow_ne_zero b alpha_ne_zero) hpow
    have hdvd : 255 ∣ (a - b) := alpha_order ▸ orderOf_dvd_of_pow_eq_one h1
    have := Nat.eq_zero_of_dvd_of_lt hdvd (by omega)
    omega

/-- `gfPow` is the monoid power. -/
theorem gfPow_eq_pow (x : GF) (n : Nat) : gfPow x n = x ^ n := by
  induction n with
  | zero => rfl
  | succ n ih =>
    show x * gfPow x n = x ^ (n + 1)
    rw [ih, pow_succ, mul_comm]

/-! ### Polynomial evaluation lemmas for the big-endian coefficient lists -/

theorem polyEval_nil (a : GF) : polyEval [] a = 0 := rfl

theorem polyEval_foldl (p : List GF) (a : GF) :
    ∀ acc : GF, p.foldl (fun acc c => acc * a + c) acc =
      acc * a ^ p.length + polyEval p a := by
  induction p with
  | nil =>
    intro acc
    simp [polyEval]
  | cons c p ih =>
    intro acc
    show p.foldl _ (acc * a + c) = _
    rw [ih (acc * a + c)]
    have h2 : polyEval (c :: p) a = (0 * a + c) * a ^ p.length + polyEval p a := by
      show (c :: p).foldl _ 0 = _
      have := ih (0 * a + c)
      simpa [List.foldl] using this
    rw [h2]
    simp only [List.length_cons, pow_succ]
    ring

theorem polyEval_cons (c : GF) (p : List GF) (a : GF) :
    polyEval (c :: p) a = c * a ^ p.length + polyEval p a := by
  show (c :: p).foldl _ 0 = _
  have := polyEval_foldl p a (0 * a + c)
  simpa [List.foldl] using this

theorem polyEval_append (p q : List GF) (a : GF) :
    polyEval (p ++ q) a = polyEval p a * a ^ q.length + polyEval q a := by
  induction p with
  | nil => simp [polyEval_nil]
  | cons c p ih =>
    rw [List.cons_append, polyEval_cons, polyEval_cons, ih,
      List.length_append]
    rw [add_mul, mul_assoc, ← pow_add]
    ring

theorem polyEval_replicate_zero (n : Nat) (a : GF) :
    polyEval (List.replicate n 0) a = 0 := by
  induction n with
  | zero => rfl
  | succ n ih =>
    rw [List.replicate_succ, polyEval_cons, ih, zero_mul, add_zero]

theorem polyEval_zipWith_add (p q : List GF) (hpq : p.length = q.length)
    (a : GF) :
    polyEval (List.zipWith (fun x y => x + y) p q) a =
      polyEval p a + polyEval q a := by
  induction p generalizing q with
  | nil =>
    cases q with
    | nil => simp [polyEval_nil]
    | cons d q => simp at hpq
  | cons c p ih =>
    cases q with
    | nil => simp at hpq
    | cons d q =>
      have hl : p.length = q.length := by simpa using hpq
      rw [List.zipWith_cons_cons, polyEval_cons, polyEval_cons, polyEval_cons,
        ih q hl]
      have hzl : (List.zipWith (fun x y => x + y) p q).length = p.length := by
        rw [List.length_zipWith, hl, min_self]
      simp only [hzl, hl]
      ring

theorem polyEval_map_mul (c : GF) (p : List GF) (a : GF) :
    polyEval (p.map (fun b => b * c)) a = c * polyEval p a := by
  induction p with
  | nil => simp [polyEval_nil]
  | cons d p ih =>
    rw [List.map_cons, polyEval_cons, polyEval_cons, ih, List.length_map]
    ring

theorem polyEval_mulLin (p : List GF) (c : GF) (a : GF) :
    polyEval (polyMulLin p c) a = polyEval p a * (a + c) := by
  have h1 : polyEval (p ++ [0]) a = polyEval p a * a := by
    rw [polyEval_append, polyEval_cons]
    simp [polyEval_nil]
  have h2 : polyEval (0 :: p.map (fun b => b * c)) a = c * polyEval p a := by
    rw [polyEval_cons, polyEval_map_mul, zero_mul, zero_add]
  unfold polyMulLin
  rw [polyEval_zipWith_add _ _ (by simp), h1, h2]
  ring

theorem genPoly_length (E : Nat) : (genPoly E).length = E + 1 := by
  induction E with
  | zero => rfl
  | succ e ih =>
    show (polyMulLin (genPoly e) (gfPow alpha e)).length = e + 2
    simp [polyMulLin, ih]

theorem polyEval_genPoly (E : Nat) (a : GF) :
    polyEval (genPoly E) a = ∏ i ∈ Finset.range E, (a + alpha ^ i) := by
  induction E with
  | zero =>
    show polyEval [1] a = 1
    rw [polyEval_cons]
    simp [polyEval_nil]
  | succ e ih =>
    show polyEval (polyMulLin (genPoly e) (gfPow alpha e)) a = _
    rw [polyEval_mulLin, ih, Finset.prod_range_succ, gfPow_eq_pow]

theorem genPoly_root (E i : Nat) (hi : i < E) :
    polyEval (genPoly E) (alpha ^ i) = 0 := by
  rw [polyEval_genPoly]
  apply Finset.prod_eq_zero (Finset.mem_range.mpr hi)
  exact gf_add_self _

/-- The generator polynomial is monic: it starts with coefficient 1. -/
theorem genPoly_shape (E : Nat) : ∃ t, genPoly E = 1 :: t ∧ t.length = E := by
  induction E with
  | zero => exact ⟨[], rfl, rfl⟩
  | succ e ih =>
    obtain ⟨t, ht, hl⟩ := ih
    refine ⟨List.zipWith (fun x y => x + y) (t ++ [0])
      (1 * gfPow alpha e :: t.map (fun b => b * gfPow alpha e)), ?_, ?_⟩
    · show polyMulLin (genPoly e) (gfPow alpha e) = _
      rw [ht]
      unfold polyMulLin
      simp only [List.cons_append, List.map_cons, List.zipWith_cons_cons]
      rw [add_zero]
    · simp [hl]

theorem polyModAux_eval (t : List GF) (a : GF) :
    ∀ (fuel : Nat) (p : List GF),
      ∃ d : GF, polyEval (polyModAux (1 :: t) fuel p) a =
        polyEval p a + d * polyEval (1 :: t) a := by
  intro fuel
  induction fuel with
  | zero =>
    intro p
    exact ⟨0, by simp [polyModAux]⟩
  | succ fuel ih =>
    intro p
    by_cases hlen : p.length < (1 :: t).length
    · refine ⟨0, ?_⟩
      have hlen2 : p.length < t.length + 1 := by simpa using hlen
      simp only [polyModAux, List.length_cons, if_pos hlen2]
      simp
    · cases p with
      | nil => simp at hlen
      | cons c rest =>
        have hrt : t.length ≤ rest.length := by
          simp only [List.length_cons] at hlen
          omega
        have hstep : polyModAux (1 :: t) (fuel + 1) (c :: rest) =
            polyModAux (1 :: t) fuel
              (List.zipWith (fun x y => x + y) rest
                (t.map (fun b => c * b) ++
                  List.replicate (rest.length - t.length) 0)) := by
          simp only [polyModAux, List.length_cons]
          rw [if_neg (by omega : ¬(rest.length + 1 < t.length + 1))]
          rfl
        obtain ⟨d, hd⟩ := ih (List.zipWith (fun x y => x + y) rest
          (t.map (fun b => c * b) ++
            List.replicate (rest.length - t.length) 0))
        refine ⟨c * a ^ (rest.length - t.length) + d, ?_⟩
        rw [hstep, hd]
        have hz : polyEval (List.zipWith (fun x y => x + y) rest
            (t.map (fun b => c * b) ++
              List.replicate (rest.length - t.length) 0)) a =
            polyEval rest a + c * polyEval t a * a ^ (rest.length - t.length) := by
          rw [polyEval_zipWith_add _ _ (by
            rw [List.length_append, List.length_map, List.length_replicate]
            omega)]
          rw [polyEval_append, polyEval_replicate_zero, add_zero,
            List.length_replicate]
          have hm : polyEval (t.map (fun b => c * b)) a = c * polyEval t a := by
            have h0 : (fun b : GF => c * b) = (fun b => b * c) := by
              funext b
              exact mul_comm c b
            rw [h0, polyEval_map_mul]
          rw [hm]
        rw [hz, polyEval_cons, polyEval_cons]
        have hpow : a ^ (rest.length - t.length) * a ^ t.length =
            a ^ rest.length := by
          rw [← pow_add]
          congr 1
          omega
        rw [← hpow]
        linear_combination
          -(gf_add_self (c * (a ^ (rest.length - t.length) * a ^ t.length)))

theorem polyModAux_length (t : List GF) :
    ∀ (fuel : Nat) (p : List GF), p.length ≤ fuel →
      (polyModAux (1 :: t) fuel p).length = min p.length t.length := by
  intro fuel
  induction fuel with
  | zero =>
    intro p hp
    have hp0 : p = [] := List.length_eq_zero.mp (by omega)
    subst hp0
    simp [polyModAux]
  | succ fuel ih =>
    intro p hp
    by_cases hlen : p.length < t.length + 1
    · simp only [polyModAux, List.length_cons, if_pos hlen]
      omega
    · cases p with
      | nil => simp at hlen
      | cons c rest =>
        have hrt : t.length ≤ rest.length := by
          simp only [List.length_cons] at hlen
          omega
        have hstep : polyModAux (1 :: t) (fuel + 1) (c :: rest) =
            polyModAux (1 :: t) fuel
              (List.zipWith (fun x y => x + y) rest
                (t.map (fun b => c * b) ++
                  List.replicate (rest.length - t.length) 0)) := by
          simp only [polyModAux, List.length_cons]
          rw [if_neg (by omega : ¬(rest.length + 1 < t.length + 1))]
          rfl
        rw [hstep]
        have hzlen : (List.zipWith (fun x y => x + y) rest
            (t.map (fun b => c * b) ++
              List.replicate (rest.length - t.length) 0)).length =
            rest.length := by
          rw [List.length_zipWith, List.length_append, List.length_map,
            List.length_replicate]
          omega
        rw [ih _ (by
          rw [hzlen]
          simp only [List.length_cons] at hp
          omega)]
        rw [hzlen]
        simp only [List.length_cons]
        omega

theorem polyMod_genPoly_length (E : Nat) (p : List GF) (hp : E ≤ p.length) :
    (polyMod p (genPoly E)).length = E := by
  obtain ⟨t, ht, hl⟩ := genPoly_shape E
  unfold polyMod
  rw [ht, polyModAux_length t p.length p (le_refl _), hl]
  omega

theorem rsEncode_length (E : Nat) (msg : List GF) :
    (rsEncode E msg).length = msg.length + E := by
  unfold rsEncode
  rw [List.length_append, polyMod_genPoly_length]
  simp

theorem rsEncode_take (E : Nat) (msg : List GF) :
    (rsEncode E msg).take msg.length = msg := by
  unfold rsEncode
  rw [List.take_left' rfl]

/-- The encoded stripe has all syndromes zero: `c = m·x^E + (m·x^E mod
g)` is a multiple of `g`, and `g(α^i) = 0` for `i < E`. -/
theorem rsEncode_syndrome (E : Nat) (msg : List GF) (i : Nat) (hi : i < E) :
    polyEval (rsEncode E msg) (alpha ^ i) = 0 := by
  obtain ⟨t, ht, hl⟩ := genPoly_shape E
  set a : GF := alpha ^ i with ha
  have hroot : polyEval (genPoly E) a = 0 := genPoly_root E i hi
  have hrlen : (polyMod (msg ++ List.replicate E 0) (genPoly E)).length = E :=
    polyMod_genPoly_length E _ (by simp)
  obtain ⟨d, hd⟩ := polyModAux_eval t a (msg ++ List.replicate E 0).length
    (msg ++ List.replicate E 0)
  have hd2 : polyEval (polyMod (msg ++ List.replicate E 0) (genPoly E)) a =
      polyEval (msg ++ List.replicate E 0) a := by
    unfold polyMod
    rw [ht] at hroot ⊢
    rw [hd, hroot, mul_zero, add_zero]
  unfold rsEncode
  rw [polyEval_append, hrlen, hd2, polyEval_append,
    polyEval_replicate_zero, add_zero, List.length_replicate]
  exact gf_add_self _

theorem polyEval_eq_sum (p : List GF) (a : GF) :
    polyEval p a =
      ∑ idx ∈ Finset.range p.length, p.getD idx 0 * a ^ (p.length - 1 - idx) := by
  induction p with
  | nil => simp [polyEval_nil]
  | cons c p ih =>
    rw [polyEval_cons, ih]
    rw [List.length_cons, Finset.sum_range_succ']
    have h0 : (c :: p).getD 0 0 * a ^ (p.length + 1 - 1 - 0) = c * a ^ p.length := by
      simp
    have hs : ∀ i, (c :: p).getD (i + 1) 0 * a ^ (p.length + 1 - 1 - (i + 1)) =
        p.getD i 0 * a ^ (p.length - 1 - i) := by
      intro i
      have he : p.length + 1 - 1 - (i + 1) = p.length - 1 - i := by omega
      rw [List.getD_cons_succ, he]
    rw [h0]
    rw [Finset.sum_congr rfl (fun i _ => hs i)]
    ring

/-- The BCH bound for erasures: a word of length at most 255 whose
first `E` syndromes vanish and which has at most `E` nonzero entries
is identically zero (Vandermonde nonsingularity over GF(2^8)). -/
theorem bch_zero (E : Nat) (z : List GF) (hL : z.length ≤ 255)
    (hsyn : ∀ i, i < E → polyEval z (alpha ^ i) = 0)
    (hsupp : ((Finset.range z.length).filter
      (fun idx => z.getD idx 0 ≠ 0)).card ≤ E) :
    ∀ idx, z.getD idx 0 = 0 := by
  set L := z.length with hLdef
  set D := (Finset.range L).filter (fun idx => z.getD idx 0 ≠ 0) with hD
  set w := D.card with hw
  have hsum : ∀ i, polyEval z (alpha ^ i) =
      ∑ idx ∈ D, z.getD idx 0 * (alpha ^ (L - 1 - idx)) ^ i := by
    intro i
    rw [polyEval_eq_sum]
    rw [← hLdef]
    have hstep : ∀ idx ∈ Finset.range L,
        z.getD idx 0 * (alpha ^ i) ^ (L - 1 - idx) =
          z.getD idx 0 * (alpha ^ (L - 1 - idx)) ^ i :=
      fun idx _ => by rw [pow_right_comm]
    rw [Finset.sum_congr rfl hstep]
    symm
    apply Finset.sum_filter_of_ne
    intro idx _ hne hz
    exact hne (by rw [hz, zero_mul])
  have hdefault : ∀ k : Fin w, ((D.equivFin.symm k) : Nat) ∈ D :=
    fun k => (D.equivFin.symm k).2
  set xk : Fin w → GF :=
    fun k => alpha ^ (L - 1 - ((D.equivFin.symm k) : Nat)) with hxk
  set uk : Fin w → GF := fun k => z.getD ((D.equivFin.symm k) : Nat) 0 with huk
  set V : Matrix (Fin w) (Fin w) GF :=
    Matrix.of (fun i k : Fin w => xk k ^ (i : Nat)) with hV
  have hidxlt : ∀ k : Fin w, ((D.equivFin.symm k) : Nat) < L := by
    intro k
    exact Finset.mem_range.mp (Finset.mem_filter.mp (hdefault k)).1
  have hVmul : V.mulVec uk = 0 := by
    funext i
    show (∑ k, V i k * uk k) = 0
    have hconv : (∑ k, V i k * uk k) =
        ∑ idx ∈ D, z.getD idx 0 * (alpha ^ (L - 1 - idx)) ^ (i : Nat) := by
      rw [← Finset.sum_coe_sort D
        (fun idx => z.getD idx 0 * (alpha ^ (L - 1 - idx)) ^ (i : Nat))]
      rw [← Equiv.sum_comp D.equivFin.symm
        (fun idx : D => z.getD (idx : Nat) 0 *
          (alpha ^ (L - 1 - (idx : Nat))) ^ (i : Nat))]
      refine Finset.sum_congr rfl (fun k _ => ?_)
      show V i k * uk k = _
      rw [hV, huk, hxk]
      simp only [Matrix.of_apply]
      ring
    rw [hconv, ← hsum (i : Nat)]
    apply hsyn
    calc (i : Nat) < w := i.isLt
      _ ≤ E := by rw [hw]; exact hsupp
  have hxinj : Function.Injective xk := by
    intro k l hkl
    rw [hxk] at hkl
    simp only at hkl
    have h1 := alpha_pow_inj _ _ (by have := hidxlt k; omega)
      (by have := hidxlt l; omega) hkl
    have h2 : ((D.equivFin.symm k) : Nat) = ((D.equivFin.symm l) : Nat) := by
      have hk := hidxlt k
      have hl := hidxlt l
      omega
    have h3 : (D.equivFin.symm k) = (D.equivFin.symm l) := Subtype.ext h2
    exact D.equivFin.symm.injective h3
  have hdet : V.det ≠ 0 := by
    have hVt : V = (Matrix.vandermonde xk).transpose := by
      funext i k
      rw [hV]
      simp [Matrix.vandermonde, Matrix.transpose]
    rw [hVt, Matrix.det_transpose, Matrix.det_vandermonde]
    rw [Finset.prod_ne_zero_iff]
    intro i _
    rw [Finset.prod_ne_zero_iff]
    intro j hj
    apply sub_ne_zero_of_ne
    intro heq
    have := hxinj heq
    rw [this] at hj
    simp at hj
  have huk0 : uk = 0 := by
    have hunit : IsUnit V.det := isUnit_iff_ne_zero.mpr hdet
    calc uk = Matrix.mulVec 1 uk := by rw [Matrix.one_mulVec]
      _ = Matrix.mulVec (V⁻¹ * V) uk := by rw [Matrix.nonsing_inv_mul V hunit]
      _ = V⁻¹.mulVec (V.mulVec uk) := by rw [← Matrix.mulVec_mulVec]
      _ = 0 := by rw [hVmul, Matrix.mulVec_zero]
  have hDempty : D = ∅ := by
    by_contra hne
    obtain ⟨idx, hidx⟩ := Finset.nonempty_of_ne_empty hne
    have hwpos : 0 < w := Finset.card_pos.mpr ⟨idx, hidx⟩
    have h1 : uk ⟨0, hwpos⟩ = 0 := by rw [huk0]; rfl
    have h3 := (Finset.mem_filter.mp (hdefault ⟨0, hwpos⟩)).2
    exact h3 h1
  intro idx
  by_cases hidx : idx < L
  · by_contra hne
    have hmem : idx ∈ D := by
      rw [hD]
      exact Finset.mem_filter.mpr ⟨Finset.mem_range.mpr hidx, hne⟩
    rw [hDempty] at hmem
    exact absurd hmem (Finset.not_mem_empty idx)
  · apply List.getD_eq_default
    omega

/-- A left fold of additions over `List.range` is a `Finset.range` sum. -/
theorem foldl_add_eq_sum (f : Nat → GF) :
    ∀ n, (List.range n).foldl (fun acc i => acc + f i) 0 =
      ∑ i ∈ Finset.range n, f i := by
  intro n
  induction n with
  | zero => rfl
  | succ n ih =>
    rw [List.range_succ, List.foldl_append, ih, Finset.sum_range_succ]
    rfl

/-- The sum of a function mapped over a list, as a sum over indices. -/
theorem map_sum_eq_range (f : Nat → GF) :
    ∀ l : List Nat, (l.map f).sum =
      ∑ k ∈ Finset.range l.length, f (l.getD k 0) := by
  intro l
  induction l with
  | nil => simp
  | cons a l ih =>
    rw [List.map_cons, List.sum_cons, ih, List.length_cons,
      Finset.sum_range_succ']
    simp only [List.getD_cons_succ, List.getD_cons_zero]
    rw [add_comm]

/-- A sum over `range L` of a function supported on a duplicate-free
list of positions below `L` equals the sum over that list's indices. -/
theorem sum_range_support (f : Nat → GF) (l : List Nat) (L : Nat)
    (hnd : l.Nodup)
    (hsub : ∀ idx, idx < L → f idx ≠ 0 → idx ∈ l)
    (hrange : ∀ p ∈ l, p < L) :
    ∑ idx ∈ Finset.range L, f idx =
      ∑ k ∈ Finset.range l.length, f (l.getD k 0) := by
  rw [← map_sum_eq_range, ← List.sum_toFinset f hnd]
  symm
  apply Finset.sum_subset
  · intro x hx
    exact Finset.mem_range.mpr (hrange x (List.mem_toFinset.mp hx))
  · intro x hx hnx
    by_contra h0
    exact hnx (List.mem_toFinset.mpr (hsub x (Finset.mem_range.mp hx) h0))

/-- `detAux` agrees with the Mathlib determinant: over GF(2^8) the
cofactor signs of the Laplace expansion along the first column all
equal `1`. -/
theorem detAux_eq_det :
    ∀ (n : Nat) (M : Nat → Nat → GF),
      detAux n M = (Matrix.of fun i j : Fin n => M i j).det := by
  intro n
  induction n with
  | zero =>
    intro M
    rw [Matrix.det_fin_zero]
    rfl
  | succ n ih =>
    intro M
    rw [Matrix.det_succ_column_zero]
    show (List.range (n+1)).foldl
      (fun acc i =>
        acc + M i 0 * detAux n (fun r c => M (if r < i then r else r + 1) (c + 1)))
      0 = _
    rw [foldl_add_eq_sum
      (fun i => M i 0 * detAux n (fun r c => M (if r < i then r else r + 1) (c + 1)))]
    rw [← Fin.sum_univ_eq_sum_range]
    refine Finset.sum_congr rfl (fun i _ => ?_)
    have hneg : ((-1 : GF) ^ (i : Nat)) = 1 := by
      have h1 : (-1 : GF) = 1 := by decide
      rw [h1, one_pow]
    rw [hneg, one_mul]
    rw [ih (fun r c => M (if r < (i : Nat) then r else r + 1) (c + 1))]
    have hsub : ((Matrix.of fun i j : Fin (n+1) => M i j).submatrix
        i.succAbove Fin.succ) =
        Matrix.of (fun r c : Fin n =>
          M (if (r : Nat) < (i : Nat) then (r : Nat) else (r : Nat) + 1)
            ((c : Nat) + 1)) := by
      funext r c
      simp only [Matrix.submatrix_apply, Matrix.of_apply, Fin.succAbove,
        Fin.lt_def, Fin.coe_castSucc, Fin.val_succ]
      by_cases h : (r : Nat) < (i : Nat)
      · rw [if_pos h, if_pos h]
        rfl
      · rw [if_neg h, if_neg h]
        rfl
    rw [hsub]
    rfl

/-- Multiplication by a matrix with nonzero determinant is injective on
vectors. -/
theorem mulVec_cancel {t : Nat} (A : Matrix (Fin t) (Fin t) GF)
    (hdet : A.det ≠ 0) {x y : Fin t → GF}
    (h : A.mulVec x = A.mulVec y) : x = y := by
  have hunit : IsUnit A.det := isUnit_iff_ne_zero.mpr hdet
  calc x = Matrix.mulVec 1 x := by rw [Matrix.one_mulVec]
    _ = (A⁻¹ * A).mulVec x := by rw [Matrix.nonsing_inv_mul A hunit]
    _ = A⁻¹.mulVec (A.mulVec x) := by rw [← Matrix.mulVec_mulVec]
    _ = A⁻¹.mulVec (A.mulVec y) := by rw [h]
    _ = (A⁻¹ * A).mulVec y := by rw [Matrix.mulVec_mulVec]
    _ = Matrix.mulVec 1 y := by rw [Matrix.nonsing_inv_mul A hunit]
    _ = y := by rw [Matrix.one_mulVec]

/-- A transposed Vandermonde matrix with pairwise-distinct nodes has a
nonzero determinant over the field GF(2^8). -/
theorem vandermondeT_det_ne_zero (t : Nat) (x : Fin t → GF)
    (hinj : Function.Injective x) :
    (Matrix.of fun i k : Fin t => x k ^ (i : Nat)).det ≠ 0 := by
  have hVt : (Matrix.of fun i k : Fin t => x k ^ (i : Nat)) =
      (Matrix.vandermonde x).transpose := by
    funext i k
    simp [Matrix.vandermonde, Matrix.transpose]
  rw [hVt, Matrix.det_transpose, Matrix.det_vandermonde]
  rw [Finset.prod_ne_zero_iff]
  intro i _
  rw [Finset.prod_ne_zero_iff]
  intro j hj
  apply sub_ne_zero_of_ne
  intro heq
  have := hinj heq
  rw [this] at hj
  simp at hj

/-- Cramer's rule: when the coefficient matrix has nonzero determinant
and `u` solves the system, `cramerSolve` returns `u` at every index. -/
theorem cramerSolve_spec (t : Nat) (M : Nat → Nat → GF) (s u : Nat → GF)
    (hdet : (Matrix.of fun i j : Fin t => M i j).det ≠ 0)
    (hsol : ∀ i : Fin t, (∑ k : Fin t, M i k * u k) = s i) :
    ∀ k : Fin t, cramerSolve t M s (k : Nat) = u (k : Nat) := by
  set A : Matrix (Fin t) (Fin t) GF := Matrix.of fun i j : Fin t => M i j with hA
  set sf : Fin t → GF := fun i => s (i : Nat) with hsf
  set uf : Fin t → GF := fun k => u (k : Nat) with huf
  have hmv : A.mulVec uf = sf := by
    funext i
    exact hsol i
  have hcr : (A.det⁻¹ • Matrix.cramer A sf) = uf := by
    apply mulVec_cancel A hdet
    rw [Matrix.mulVec_smul, Matrix.mulVec_cramer, hmv]
    rw [smul_smul, inv_mul_cancel₀ hdet, one_smul]
  intro k
  have hupd : detAux t (fun r c => if c = (k : Nat) then s r else M r c) =
      (A.updateColumn k sf).det := by
    rw [detAux_eq_det t (fun r c => if c = (k : Nat) then s r else M r c)]
    congr 1
    funext i j
    rw [Matrix.updateColumn_apply]
    simp only [Matrix.of_apply]
    by_cases hj : j = k
    · rw [if_pos hj, if_pos (by rw [hj])]
    · rw [if_neg hj, if_neg (fun hc => hj (Fin.ext hc))]
      rw [hA]
      rfl
  show (detAux t M)⁻¹ * detAux t (fun r c => if c = (k : Nat) then s r else M r c) = _
  rw [hupd, detAux_eq_det t M, ← hA, ← Matrix.cramer_apply]
  have := congrFun hcr k
  rw [Pi.smul_apply, smul_eq_mul] at this
  exact this

/-- The correction fold of `rsDecode` preserves the word length. -/
theorem foldl_set_length (p : Nat → Nat) (u : Nat → GF) :
    ∀ (ks : List Nat) (w : List GF),
      (ks.foldl (fun w k => w.set (p k) (w.getD (p k) 0 + u k)) w).length =
        w.length := by
  intro ks
  induction ks with
  | nil => intro w; rfl
  | cons k ks ih =>
    intro w
    rw [List.foldl_cons, ih, List.length_set]

/-- The correction fold of `rsDecode` leaves untouched positions
unchanged. -/
theorem foldl_set_getD_notin (p : Nat → Nat) (u : Nat → GF) :
    ∀ (ks : List Nat) (w : List GF) (q : Nat),
      (∀ k ∈ ks, p k ≠ q) →
      (ks.foldl (fun w k => w.set (p k) (w.getD (p k) 0 + u k)) w).getD q 0 =
        w.getD q 0 := by
  intro ks
  induction ks with
  | nil => intro w q _; rfl
  | cons k ks ih =>
    intro w q hq
    rw [List.foldl_cons, ih _ _ (fun a ha => hq a (List.mem_cons_of_mem _ ha))]
    rw [List.getD_eq_getElem?_getD, List.getD_eq_getElem?_getD,
      List.getElem?_set_ne (hq k (List.mem_cons_self _ _))]
    rw [List.getD_eq_getElem?_getD]

/-- The correction fold of `rsDecode` adds `u k` at position `p k` when
the write indices are distinct and map to distinct positions. -/
theorem foldl_set_getD_mem (p : Nat → Nat) (u : Nat → GF) :
    ∀ (ks : List Nat) (w : List GF) (k0 : Nat),
      k0 ∈ ks → ks.Nodup → (∀ a ∈ ks, p a = p k0 → a = k0) →
      p k0 < w.length →
      (ks.foldl (fun w k => w.set (p k) (w.getD (p k) 0 + u k)) w).getD
          (p k0) 0 =
        w.getD (p k0) 0 + u k0 := by
  intro ks
  induction ks with
  | nil => intro w k0 h; exact absurd h (List.not_mem_nil k0)
  | cons k ks ih =>
    intro w k0 hmem hnd hinj hlt
    rw [List.foldl_cons]
    rcases List.mem_cons.mp hmem with hk | hk
    · subst hk
      have hnot : ∀ a ∈ ks, p a ≠ p k0 := by
        intro a ha hpa
        have := hinj a (List.mem_cons_of_mem _ ha) hpa
        subst this
        exact (List.pairwise_cons.mp hnd).1 a ha rfl
      rw [foldl_set_getD_notin p u ks _ _ hnot]
      rw [List.getD_eq_getElem?_getD, List.getElem?_set_self' ]
      rw [List.getElem?_eq_getElem hlt]
      rfl
    · have hne : p k ≠ p k0 := by
        intro hpk
        have := hinj k (List.mem_cons_self _ _) hpk
        subst this
        exact (List.pairwise_cons.mp hnd).1 k hk rfl
      rw [ih _ k0 hk (List.pairwise_cons.mp hnd).2
        (fun a ha hpa => hinj a (List.mem_cons_of_mem _ ha) hpa)
        (by rw [List.length_set]; exact hlt)]
      rw [List.getD_eq_getElem?_getD, List.getD_eq_getElem?_getD,
        List.getElem?_set_ne hne]
      rw [List.getD_eq_getElem?_getD]

/-- A word whose syndromes all vanish and which differs from a
zero-syndrome codeword only on at most `E` duplicate-free positions
equals that codeword. -/
theorem eq_of_syndromes_zero (E : Nat) (c w : List GF) (errPos : List Nat)
    (hlen : w.length = c.length) (hL : c.length ≤ 255)
    (hnd : errPos.Nodup) (hcard : errPos.length ≤ E)
    (hagree : ∀ q, q < c.length → q ∉ errPos → w.getD q 0 = c.getD q 0)
    (hsc : ∀ i, i < E → polyEval c (alpha ^ i) = 0)
    (hsw : ∀ i, i < E → polyEval w (alpha ^ i) = 0) :
    w = c := by
  set z := List.zipWith (· + ·) w c with hz
  have hzlen : z.length = c.length := by
    rw [hz, List.length_zipWith, hlen, Nat.min_self]
  have hzget : ∀ q, q < c.length → z.getD q 0 = w.getD q 0 + c.getD q 0 := by
    intro q hq
    have hqz : q < z.length := by rw [hzlen]; exact hq
    have hqw : q < w.length := by rw [hlen]; exact hq
    rw [List.getD_eq_getElem?_getD, List.getElem?_eq_getElem hqz]
    rw [List.getD_eq_getElem?_getD (w) q, List.getElem?_eq_getElem hqw]
    rw [List.getD_eq_getElem?_getD (c) q, List.getElem?_eq_getElem hq]
    simp [hz, List.getElem_zipWith]
  have hzsyn : ∀ i, i < E → polyEval z (alpha ^ i) = 0 := by
    intro i hi
    rw [hz, polyEval_zipWith_add w c hlen, hsc i hi, hsw i hi, add_zero]
  have hzsupp : ((Finset.range z.length).filter
      (fun idx => z.getD idx 0 ≠ 0)).card ≤ E := by
    calc ((Finset.range z.length).filter (fun idx => z.getD idx 0 ≠ 0)).card
        ≤ errPos.toFinset.card := by
          apply Finset.card_le_card
          intro idx hidx
          obtain ⟨hr, hne⟩ := Finset.mem_filter.mp hidx
          have hq : idx < c.length := by rw [← hzlen]; exact Finset.mem_range.mp hr
          rw [List.mem_toFinset]
          by_contra hni
          apply hne
          rw [hzget idx hq, hagree idx hq hni, gf_add_self]
      _ ≤ E := by
          calc errPos.toFinset.card ≤ errPos.length := errPos.toFinset_card_le
            _ ≤ E := hcard
  have hz0 := bch_zero E z (by rw [hzlen]; exact hL) hzsyn hzsupp
  apply List.ext_getElem hlen
  intro q hqw hqc
  have h1 := hz0 q
  rw [hzget q hqc] at h1
  have h2 : w.getD q 0 = c.getD q 0 := by
    calc w.getD q 0 = w.getD q 0 + (c.getD q 0 + c.getD q 0) := by
          rw [gf_add_self, add_zero]
      _ = (w.getD q 0 + c.getD q 0) + c.getD q 0 := by rw [add_assoc]
      _ = c.getD q 0 := by rw [h1, zero_add]
  rw [List.getD_eq_getElem?_getD, List.getElem?_eq_getElem hqw] at h2
  rw [List.getD_eq_getElem?_getD, List.getElem?_eq_getElem hqc] at h2
  exact h2

/-- `getD` of the pointwise sum of two equal-length words. -/
theorem getD_zipWith_add (w c : List GF) (q : Nat)
    (hlen : w.length = c.length) (hq : q < c.length) :
    (List.zipWith (· + ·) w c).getD q 0 = w.getD q 0 + c.getD q 0 := by
  have hqz : q < (List.zipWith (· + ·) w c).length := by
    rw [List.length_zipWith, hlen, Nat.min_self]
    exact hq
  have hqw : q < w.length := by rw [hlen]; exact hq
  rw [List.getD_eq_getElem?_getD, List.getElem?_eq_getElem hqz]
  rw [List.getD_eq_getElem?_getD (w) q, List.getElem?_eq_getElem hqw]
  rw [List.getD_eq_getElem?_getD (c) q, List.getElem?_eq_getElem hq]
  simp [List.getElem_zipWith]

/-- `getD` below the length is a list member. -/
theorem getD_mem_of_lt (l : List Nat) (b : Nat) (hb : b < l.length) :
    l.getD b 0 ∈ l := by
  rw [List.getD_eq_getElem?_getD, List.getElem?_eq_getElem hb]
  exact List.getElem_mem hb

/-- `getD` below the length is `get`. -/
theorem getD_eq_get (l : List Nat) (b : Nat) (hb : b < l.length) :
    l.getD b 0 = l.get ⟨b, hb⟩ := by
  rw [List.getD_eq_getElem?_getD, List.getElem?_eq_getElem hb]
  rfl

/-- Correctness of the spec-modelled erasure decoder: decoding a word
that agrees with the systematic codeword of `msg` outside at most `E`
known duplicate-free in-range positions recovers `msg` exactly. -/
theorem rsDecode_correct (N E : Nat) (msg word : List GF)
    (errPos : List Nat)
    (hmsg : msg.length = N) (h255 : N + E ≤ 255)
    (hwlen : word.length = N + E)
    (hnd : errPos.Nodup) (hrange : ∀ p ∈ errPos, p < N + E)
    (hcard : errPos.length ≤ E)
    (hagree : ∀ q, q < N + E → q ∉ errPos →
      word.getD q 0 = (rsEncode E msg).getD q 0) :
    rsDecode N E word errPos = (msg, true) := by
  set c := rsEncode E msg with hcdef
  have hclen : c.length = N + E := by
    rw [hcdef, rsEncode_length, hmsg]
  have hsynC : ∀ i, i < E → polyEval c (alpha ^ i) = 0 :=
    fun i hi => rsEncode_syndrome E msg i hi
  have htake : c.take N = msg := by
    rw [hcdef, ← hmsg]
    exact rsEncode_take E msg
  have hwc : word.length = c.length := by rw [hwlen, hclen]
  by_cases hall : ∀ i, i < E → syndrome word i = 0
  · have hcond : ((List.range E).all
        (fun i => decide (syndrome word i = 0))) = true := by
      rw [List.all_eq_true]
      intro i hi
      rw [decide_eq_true_eq]
      exact hall i (List.mem_range.mp hi)
    have hw : word = c := by
      apply eq_of_syndromes_zero E c word errPos hwc
        (by rw [hclen]; exact h255) hnd hcard
      · intro q hq hqe
        rw [hclen] at hq
        exact hagree q hq hqe
      · exact hsynC
      · intro i hi
        have := hall i hi
        rwa [syndrome, gfPow_eq_pow] at this
    simp only [rsDecode]
    rw [if_pos hcond, hw, htake]
  · have hnc : ¬ (((List.range E).all
        (fun i => decide (syndrome word i = 0))) = true) := by
      intro h
      apply hall
      intro i hi
      have := List.all_eq_true.mp h i (List.mem_range.mpr hi)
      exact decide_eq_true_eq.mp this
    have hnc2 : ¬ E < errPos.length := by omega
    set u := cramerSolve errPos.length
      (fun i k => gfPow (gfPow alpha (N + E - 1 - errPos.getD k 0)) i)
      (fun i => syndrome word i) with hu
    set corrected := (List.range errPos.length).foldl
      (fun w k => w.set (errPos.getD k 0) (w.getD (errPos.getD k 0) 0 + u k))
      word with hcorr
    have hstep : rsDecode N E word errPos =
        if (List.range E).all (fun i => decide (syndrome corrected i = 0)) then
          (corrected.take N, true)
        else ([], false) := by
      simp only [rsDecode]
      rw [if_neg hnc, if_neg hnc2]
    set z := List.zipWith (· + ·) word c with hz
    have hzlen : z.length = N + E := by
      rw [hz, List.length_zipWith, hwc, Nat.min_self, hclen]
    have hzget : ∀ q, q < N + E → z.getD q 0 = word.getD q 0 + c.getD q 0 := by
      intro q hq
      rw [hz]
      exact getD_zipWith_add word c q hwc (by rw [hclen]; exact hq)
    set evec : Nat → GF := fun k =>
      word.getD (errPos.getD k 0) 0 + c.getD (errPos.getD k 0) 0 with hevec
    have hdlt : ∀ b, b < errPos.length → errPos.getD b 0 < N + E :=
      fun b hb => hrange _ (getD_mem_of_lt errPos b hb)
    have hdinj : ∀ a b, a < errPos.length → b < errPos.length →
        errPos.getD a 0 = errPos.getD b 0 → a = b := by
      intro a b ha hb hab
      rw [getD_eq_get errPos a ha, getD_eq_get errPos b hb] at hab
      have := List.nodup_iff_injective_get.mp hnd hab
      exact congrArg Fin.val this
    have hdet : (Matrix.of fun i j : Fin errPos.length =>
        (fun i k => gfPow (gfPow alpha (N + E - 1 - errPos.getD k 0)) i)
          (i : Nat) (j : Nat)).det ≠ 0 := by
      have hMx : (Matrix.of fun i j : Fin errPos.length =>
          (fun i k => gfPow (gfPow alpha (N + E - 1 - errPos.getD k 0)) i)
            (i : Nat) (j : Nat)) =
          Matrix.of (fun i k : Fin errPos.length =>
            (alpha ^ (N + E - 1 - errPos.getD (k : Nat) 0)) ^ (i : Nat)) := by
        funext i k
        simp only [Matrix.of_apply]
        rw [gfPow_eq_pow, gfPow_eq_pow]
      rw [hMx]
      apply vandermondeT_det_ne_zero
      intro k l hkl
      simp only at hkl
      have hdk := hdlt _ k.isLt
      have hdl := hdlt _ l.isLt
      have h1 := alpha_pow_inj _ _ (by omega) (by omega) hkl
      have h2 := hdinj _ _ k.isLt l.isLt (by omega)
      exact Fin.ext h2
    have hsol : ∀ i : Fin errPos.length,
        (∑ k : Fin errPos.length,
          (fun i k => gfPow (gfPow alpha (N + E - 1 - errPos.getD k 0)) i)
            (i : Nat) (k : Nat) * evec (k : Nat)) =
          (fun i => syndrome word i) (i : Nat) := by
      intro i
      have hiE : (i : Nat) < E := lt_of_lt_of_le i.isLt hcard
      have h1 : polyEval z (alpha ^ (i : Nat)) =
          polyEval word (alpha ^ (i : Nat)) + polyEval c (alpha ^ (i : Nat)) := by
        rw [hz]
        exact polyEval_zipWith_add word c hwc _
      rw [hsynC (i : Nat) hiE, add_zero] at h1
      show _ = syndrome word (i : Nat)
      rw [syndrome, gfPow_eq_pow, ← h1]
      rw [polyEval_eq_sum z (alpha ^ (i : Nat)), hzlen]
      rw [sum_range_support
        (fun idx => z.getD idx 0 * (alpha ^ (i : Nat)) ^ (N + E - 1 - idx))
        errPos (N + E) hnd ?_ hrange]
      · rw [← Fin.sum_univ_eq_sum_range
          (fun k => z.getD (errPos.getD k 0) 0 *
            (alpha ^ (i : Nat)) ^ (N + E - 1 - errPos.getD k 0)) errPos.length]
        refine Finset.sum_congr rfl (fun k _ => ?_)
        have hplt : errPos.getD (k : Nat) 0 < N + E := hdlt _ k.isLt
        have hev : evec (k : Nat) = z.getD (errPos.getD (k : Nat) 0) 0 := by
          rw [hevec]
          show word.getD (errPos.getD (k : Nat) 0) 0 +
            c.getD (errPos.getD (k : Nat) 0) 0 = _
          rw [hzget _ hplt]
        show gfPow (gfPow alpha (N + E - 1 - errPos.getD (k : Nat) 0)) (i : Nat) *
          evec (k : Nat) = _
        rw [hev, gfPow_eq_pow, gfPow_eq_pow, pow_right_comm]
        ring
      · intro idx hidx hne
        by_contra hni
        apply hne
        show z.getD idx 0 * (alpha ^ (i : Nat)) ^ (N + E - 1 - idx) = 0
        rw [hzget idx hidx, hagree idx hidx hni, gf_add_self, zero_mul]
    have hukey : ∀ k : Fin errPos.length,
        u (k : Nat) = evec (k : Nat) := by
      intro k
      rw [hu]
      exact cramerSolve_spec errPos.length
        (fun i k => gfPow (gfPow alpha (N + E - 1 - errPos.getD k 0)) i)
        (fun i => syndrome word i) evec hdet hsol k
    have hcorrlen : corrected.length = word.length :=
      foldl_set_length (fun k => errPos.getD k 0) u (List.range errPos.length) word
    have hcc : corrected = c := by
      apply List.ext_getElem (by rw [hcorrlen, hwlen, hclen])
      intro q h1 h2
      have hq : q < N + E := by rw [← hclen]; exact h2
      suffices hS : corrected.getD q 0 = c.getD q 0 by
        rw [List.getD_eq_getElem?_getD, List.getElem?_eq_getElem h1] at hS
        rw [List.getD_eq_getElem?_getD, List.getElem?_eq_getElem h2] at hS
        exact hS
      by_cases hqe : q ∈ errPos
      · obtain ⟨k0, hk0, hpk0⟩ := List.getElem_of_mem hqe
        have hpd : errPos.getD k0 0 = q := by
          rw [getD_eq_get errPos k0 hk0]
          exact hpk0
        have hinjk : ∀ a ∈ List.range errPos.length,
            errPos.getD a 0 = errPos.getD k0 0 → a = k0 := by
          intro a ha hpa
          exact hdinj a k0 (List.mem_range.mp ha) hk0 hpa
        have hlt : errPos.getD k0 0 < word.length := by
          rw [hpd, hwlen]
          exact hq
        have hfold : corrected.getD (errPos.getD k0 0) 0 =
            word.getD (errPos.getD k0 0) 0 + u k0 :=
          foldl_set_getD_mem (fun k => errPos.getD k 0) u
            (List.range errPos.length) word k0 (List.mem_range.mpr hk0)
            (List.nodup_range errPos.length) hinjk hlt
        rw [hpd] at hfold
        have hu0 : u k0 = evec k0 := hukey ⟨k0, hk0⟩
        have hev0 : evec k0 = word.getD q 0 + c.getD q 0 := by
          rw [hevec]
          show word.getD (errPos.getD k0 0) 0 + c.getD (errPos.getD k0 0) 0 = _
          rw [hpd]
        rw [hfold, hu0, hev0, ← add_assoc, gf_add_self, zero_add]
      · have hnot : ∀ k ∈ List.range errPos.length, errPos.getD k 0 ≠ q := by
          intro k hk hckq
          apply hqe
          rw [← hckq]
          exact getD_mem_of_lt errPos k (List.mem_range.mp hk)
        have hfold : corrected.getD q 0 = word.getD q 0 :=
          foldl_set_getD_notin (fun k => errPos.getD k 0) u
            (List.range errPos.length) word q hnot
        rw [hfold, ← hcdef] at *
        rw [hfold]
        exact hagree q hq hqe
    have hFcond : ((List.range E).all
        (fun i => decide (syndrome c i = 0))) = true := by
      rw [List.all_eq_true]
      intro i hi
      rw [decide_eq_true_eq, syndrome, gfPow_eq_pow]
      exact hsynC i (List.mem_range.mp hi)
    rw [hstep, hcc, if_pos hFcond, htake]

/-- The fuel variant of `SplitSubN` restores the input by
concatenation whenever the fuel covers the length. -/
theorem splitSubNAux_flatten (n : Nat) (hn : 0 < n) :
    ∀ (fuel : Nat) (l : List GF), l.length ≤ fuel →
      (splitSubNAux n fuel l).flatten = l := by
  intro fuel
  induction fuel with
  | zero =>
    intro l hl
    have : l = [] := List.length_eq_zero.mp (by omega)
    subst this
    rfl
  | succ fuel ih =>
    intro l hl
    by_cases h : l = [] ∨ n = 0
    · rcases h with h | h
      · subst h
        rfl
      · omega
    · rw [splitSubNAux, if_neg h]
      push_neg at h
      rw [List.flatten_cons]
      rw [ih (l.drop n) ?_]
      · exact List.take_append_drop n l
      · rw [List.length_drop]
        have h1 : l.length ≠ 0 := fun hc => h.1 (List.length_eq_zero.mp hc)
        omega

/-- Concatenating the rows produced by `SplitSubN` restores the padded
byte string. -/
theorem SplitSubN_flatten (n : Nat) (hn : 0 < n) :
    ∀ l : List GF, (SplitSubN l n).flatten = l :=
  fun l => splitSubNAux_flatten n hn l.length l (le_refl _)

/-- The fuel variant of `SplitSubN` produces rows of width `n` when `n`
divides the length and the fuel covers it. -/
theorem splitSubNAux_mem_length (n : Nat) (hn : 0 < n) :
    ∀ (fuel : Nat) (l : List GF), l.length ≤ fuel → n ∣ l.length →
      ∀ s ∈ splitSubNAux n fuel l, s.length = n := by
  intro fuel
  induction fuel with
  | zero =>
    intro l hl hdvd s hs
    exact absurd hs (List.not_mem_nil s)
  | succ fuel ih =>
    intro l hl hdvd s hs
    by_cases h : l = [] ∨ n = 0
    · rw [splitSubNAux, if_pos h] at hs
      exact absurd hs (List.not_mem_nil s)
    · rw [splitSubNAux, if_neg h] at hs
      push_neg at h
      have h1 : l.length ≠ 0 := fun hc => h.1 (List.length_eq_zero.mp hc)
      have hnle : n ≤ l.length := Nat.le_of_dvd (Nat.pos_of_ne_zero h1) hdvd
      rcases List.mem_cons.mp hs with hs | hs
      · subst hs
        rw [List.length_take]
        omega
      · refine ih (l.drop n) ?_ ?_ s hs
        · rw [List.length_drop]
          omega
        · rw [List.length_drop]
          exact Nat.dvd_sub' hdvd dvd_rfl

/-- When the row width divides the padded length, every row produced by
`SplitSubN` has exactly that width. -/
theorem SplitSubN_mem_length (n : Nat) (hn : 0 < n) :
    ∀ l : List GF, n ∣ l.length → ∀ s ∈ SplitSubN l n, s.length = n :=
  fun l hdvd => splitSubNAux_mem_length n hn l.length l (le_refl _) hdvd

/-- `findIdx?` over zero padding followed by the sentinel finds the
sentinel. -/
theorem findIdx_replicate_one (rest : List GF) :
    ∀ (k i : Nat),
      List.findIdx? (fun c => decide (c = (1 : GF)))
        (List.replicate k 0 ++ (1 : GF) :: rest) i = some (i + k) := by
  intro k
  induction k with
  | zero =>
    intro i
    rw [List.replicate_zero, List.nil_append, List.findIdx?_cons]
    rw [if_pos (by decide)]
    rfl
  | succ k ih =>
    intro i
    rw [List.replicate_succ, List.cons_append, List.findIdx?_cons]
    rw [if_neg (by decide), ih (i + 1)]
    congr 1
    omega

/-- The backwards sentinel scan on a word of the form
`b ++ 0x01 ++ 0 … 0` stops exactly at the boundary `|b|`. -/
theorem lastSentinelIdx_pad (b : List GF) (k : Nat) :
    lastSentinelIdx (b ++ (1 : GF) :: List.replicate k 0) = some b.length := by
  have hrev : (b ++ (1 : GF) :: List.replicate k 0).reverse =
      List.replicate k 0 ++ (1 : GF) :: b.reverse := by
    rw [List.reverse_append, List.reverse_cons, List.reverse_replicate,
      List.append_assoc, List.singleton_append]
  rw [lastSentinelIdx, hrev, findIdx_replicate_one b.reverse k 0]
  show some ((b ++ (1 : GF) :: List.replicate k 0).length - 1 - (0 + k)) = _
  congr 1
  rw [List.length_append, List.length_cons, List.length_replicate]
  omega

/-- The row-decoding loop succeeds rowwise and concatenates the decoded
stripes. -/
theorem decodeRowsLoop_ok (N E : Nat) (errPos : List Nat) :
    ∀ (rows outs : List (List GF)),
      List.Forall₂ (fun row out => rsDecode N E row errPos = (out, true))
        rows outs →
      decodeRowsLoop N E errPos rows = some outs.flatten := by
  intro rows outs h
  induction h with
  | nil => rfl
  | cons hd tl ih =>
    rw [decodeRowsLoop, hd, ih]
    simp [List.flatten_cons]

/-- Processing one consistent in-range fragment under the total
invariant records its code at its position and leaves the rest of the
matrix untouched. -/
theorem procFrag_okZ (nTot m : Nat) (st : SpliceState)
    (pmap : Nat → Option (List GF)) (f : Fragment)
    (hinv : SpliceInvZ m st pmap) (hpos : f.pos.val < nTot)
    (hlen : f.code.length = m)
    (hcons : ∀ c, pmap f.pos.val = some c → c = f.code) :
    ∃ st2, procFrag nTot m st f = .ok st2 ∧
      SpliceInvZ m st2
        (fun p => if p = f.pos.val then some f.code else pmap p) := by
  obtain ⟨hA, hB, hC⟩ := hinv
  have hjs : ∀ j ∈ List.range m, j < f.code.length := by
    intro j hj
    rw [hlen]
    exact List.mem_range.mp hj
  have hdup : st.flag f.pos.val = true →
      ∀ j ∈ List.range m, st.tmp j f.pos.val = f.code.getD j 0 := by
    intro hfl j hj
    rw [hA] at hfl
    cases hp : pmap f.pos.val with
    | none => rw [hp] at hfl; simp at hfl
    | some c =>
      have hc := hcons c hp
      subst hc
      rw [hC j _ (List.mem_range.mp hj), hp]
      rfl
  obtain ⟨tmp2, heq, hoth, hin, hout⟩ :=
    procRowList_ok f.code f.pos.val (st.flag f.pos.val) (List.range m)
      st.tmp hjs hdup
  refine ⟨⟨tmp2, fun p => if p = f.pos.val then true else st.flag p⟩,
    ?_, ?_, ?_, ?_⟩
  · simp only [procFrag, if_pos hpos, heq]
  · intro p
    by_cases hp : p = f.pos.val <;> simp [hp, hA]
  · intro p c hc
    simp only at hc
    by_cases hp : p = f.pos.val
    · rw [if_pos hp] at hc
      cases hc
      exact hlen
    · rw [if_neg hp] at hc
      exact hB p c hc
  · intro j p hj
    simp only
    by_cases hp : p = f.pos.val
    · rw [if_pos hp]
      show tmp2 j p = f.code.getD j 0
      rw [hp]
      exact hin j (List.mem_range.mpr hj)
    · rw [if_neg hp]
      show tmp2 j p = ((pmap p).getD []).getD j 0
      rw [hoth j p hp]
      exact hC j p hj

/-- The splice pass over pairwise-consistent well-formed fragments
completes and produces the state described by `pmapIns`. -/
theorem splicePass_okZ (nTot m : Nat) :
    ∀ (P : List Fragment) (st : SpliceState)
      (pmap : Nat → Option (List GF)),
    SpliceInvZ m st pmap →
    (∀ f ∈ P, f.pos.val < nTot ∧ f.code.length = m) →
    (∀ f ∈ P, ∀ c, pmap f.pos.val = some c → c = f.code) →
    (∀ f ∈ P, ∀ g ∈ P, f.pos = g.pos → f.code = g.code) →
    ∃ st2, splicePass nTot m P st = .ok st2 ∧
      SpliceInvZ m st2 (pmapIns P pmap) := by
  intro P
  induction P with
  | nil =>
    intro st pmap hinv _ _ _
    exact ⟨st, rfl, hinv⟩
  | cons h rest ih =>
    intro st pmap hinv hwf hcons hpair
    have hh := hwf h (List.mem_cons_self _ _)
    obtain ⟨st2, hok, hinv2⟩ :=
      procFrag_okZ nTot m st pmap h hinv hh.1 hh.2
        (fun c hc => hcons h (List.mem_cons_self _ _) c hc)
    have hwf2 : ∀ f ∈ rest, f.pos.val < nTot ∧ f.code.length = m :=
      fun f hf => hwf f (List.mem_cons_of_mem _ hf)
    have hcons2 : ∀ f ∈ rest, ∀ c,
        (fun p => if p = h.pos.val then some h.code else pmap p) f.pos.val =
          some c → c = f.code := by
      intro f hf c hc
      simp only at hc
      by_cases hp : f.pos.val = h.pos.val
      · rw [if_pos hp] at hc
        cases hc
        exact hpair h (List.mem_cons_self _ _) f (List.mem_cons_of_mem _ hf)
          (Fin.ext hp.symm)
      · rw [if_neg hp] at hc
        exact hcons f (List.mem_cons_of_mem _ hf) c hc
    have hpair2 : ∀ f ∈ rest, ∀ g ∈ rest, f.pos = g.pos → f.code = g.code :=
      fun f hf g hg =>
        hpair f (List.mem_cons_of_mem _ hf) g (List.mem_cons_of_mem _ hg)
    obtain ⟨st3, hok3, hinv3⟩ := ih st2 _ hinv2 hwf2 hcons2 hpair2
    refine ⟨st3, ?_, hinv3⟩
    simp only [splicePass, hok]
    exact hok3

/-- `pmapIns` of a position-determined fragment list. -/
theorem pmapIns_eq (cc : Nat → List GF) :
    ∀ (P : List Fragment) (pmap : Nat → Option (List GF)),
    (∀ f ∈ P, f.code = cc f.pos.val) →
    ∀ p, pmapIns P pmap p =
      if (∃ f ∈ P, f.pos.val = p) then some (cc p) else pmap p := by
  intro P
  induction P with
  | nil =>
    intro pmap _ p
    rw [if_neg (by rintro ⟨f, hf, _⟩; exact List.not_mem_nil f hf)]
    rfl
  | cons h rest ih =>
    intro pmap hcc p
    have hstep : pmapIns (h :: rest) pmap =
        pmapIns rest (fun q => if q = h.pos.val then some h.code else pmap q) :=
      rfl
    rw [hstep, ih _ (fun f hf => hcc f (List.mem_cons_of_mem _ hf)) p]
    by_cases hr : ∃ f ∈ rest, f.pos.val = p
    · rw [if_pos hr, if_pos ?_]
      obtain ⟨f, hf, hfp⟩ := hr
      exact ⟨f, List.mem_cons_of_mem _ hf, hfp⟩
    · rw [if_neg hr]
      by_cases hp : p = h.pos.val
      · rw [if_pos hp, if_pos ?_]
        · rw [hcc h (List.mem_cons_self _ _), hp]
        · exact ⟨h, List.mem_cons_self _ _, hp.symm⟩
      · rw [if_neg hp, if_neg ?_]
        rintro ⟨f, hf, hfp⟩
        rcases List.mem_cons.mp hf with hfh | hfr
        · exact hp (by rw [← hfp, hfh])
        · exact hr ⟨f, hfr, hfp⟩

/-- C1 (spec-modelled codec core): for every byte string and admissible
configuration (`0 < N`, `N + E ≤ 255`), splicing any collection of
fragments drawn from `DivideAndEncode b` that covers at least `N`
distinct positions and decoding recovers exactly the original bytes,
with `ok = true`. -/
theorem divide_and_encode_splice_roundtrip (r : RSCodec) (b : List GF)
    (hN : 0 < r.NumSymbols)
    (hTot : r.NumSymbols + r.EccSymbols ≤ 255)
    (sub : List Fragment)
    (hmem : ∀ f ∈ sub, f ∈ r.DivideAndEncode b)
    (hcard : r.NumSymbols ≤ ((sub.map (fun f => f.pos.val)).toFinset).card) :
    r.SpliceAndDecode sub = some (b, true) := by
  set data1 := b ++ [(1 : GF)] with hdata1
  set rmd := data1.length % r.NumSymbols with hrmd
  set padded :=
    if rmd ≠ 0 then data1 ++ List.replicate (r.NumSymbols - rmd) 0 else data1
    with hpad
  set subs := SplitSubN padded r.NumSymbols with hsubs
  set rowsE := subs.map (fun row => rsEncode r.EccSymbols row) with hrowsE
  have hDE : r.DivideAndEncode b =
      (List.range (r.NumSymbols + r.EccSymbols)).map (fun i =>
        ({ pos := ⟨i % 256, Nat.mod_lt _ (by norm_num)⟩
           code := rowsE.map (fun row => row.getD i 0) } : Fragment)) := rfl
  rw [hDE] at hmem
  have hfrag : ∀ f ∈ sub, f.pos.val < r.NumSymbols + r.EccSymbols ∧
      f.code = rowsE.map (fun row => row.getD f.pos.val 0) := by
    intro f hf
    obtain ⟨i, hi, rfl⟩ := List.mem_map.mp (hmem f hf)
    have hi' := List.mem_range.mp hi
    have hmod : i % 256 = i := Nat.mod_eq_of_lt (by omega)
    constructor
    · show i % 256 < _
      rw [hmod]
      exact hi'
    · show rowsE.map (fun row => row.getD i 0) =
        rowsE.map (fun row => row.getD (i % 256) 0)
      rw [hmod]
  have hm0 : ∀ f ∈ sub, f.code.length = rowsE.length := by
    intro f hf
    rw [(hfrag f hf).2, List.length_map]
  -- padding facts
  have hdata1len : data1.length = b.length + 1 := by
    rw [hdata1, List.length_append]
    rfl
  have hpadded_pad : ∃ pad, padded = data1 ++ List.replicate pad 0 := by
    by_cases h : rmd ≠ 0
    · exact ⟨r.NumSymbols - rmd, by rw [hpad, if_pos h]⟩
    · exact ⟨0, by rw [hpad, if_neg h, List.replicate_zero, List.append_nil]⟩
  have hdvd : r.NumSymbols ∣ padded.length := by
    by_cases h : rmd ≠ 0
    · rw [hpad, if_pos h, List.length_append, List.length_replicate]
      have hmod := Nat.div_add_mod data1.length r.NumSymbols
      rw [← hrmd] at hmod
      have hlt : rmd < r.NumSymbols := by
        rw [hrmd]
        exact Nat.mod_lt _ hN
      refine ⟨data1.length / r.NumSymbols + 1, ?_⟩
      calc data1.length + (r.NumSymbols - rmd)
          = (r.NumSymbols * (data1.length / r.NumSymbols) + rmd) +
            (r.NumSymbols - rmd) := by rw [hmod]
        _ = r.NumSymbols * (data1.length / r.NumSymbols) +
            (rmd + (r.NumSymbols - rmd)) := by rw [add_assoc]
        _ = r.NumSymbols * (data1.length / r.NumSymbols) + r.NumSymbols := by
            rw [Nat.add_sub_cancel' (le_of_lt hlt)]
        _ = r.NumSymbols * (data1.length / r.NumSymbols + 1) := by ring
    · push_neg at h
      rw [hpad, if_neg (by rw [h]; exact fun hc => hc rfl)]
      apply Nat.dvd_of_mod_eq_zero
      rw [← hrmd]
      exact h
  have hsubslen : ∀ s ∈ subs, s.length = r.NumSymbols := by
    rw [hsubs]
    exact SplitSubN_mem_length r.NumSymbols hN padded hdvd
  have hflat : subs.flatten = padded := by
    rw [hsubs]
    exact SplitSubN_flatten r.NumSymbols hN padded
  -- the fragment list is nonempty
  obtain ⟨f0, rest, rfl⟩ : ∃ f0 rest, sub = f0 :: rest := by
    cases sub with
    | nil =>
      exfalso
      simp only [List.map_nil, List.toFinset_nil, Finset.card_empty] at hcard
      omega
    | cons a l => exact ⟨a, l, rfl⟩
  have hm : f0.code.length = rowsE.length := hm0 f0 (List.mem_cons_self _ _)
  -- run the splice pass
  have hinv0 : SpliceInvZ f0.code.length
      ⟨fun _ _ => 0, fun _ => false⟩ (fun _ => none) :=
    ⟨fun _ => rfl, fun _ c hc => Option.noConfusion hc, fun _ _ _ => rfl⟩
  obtain ⟨st, hsp, hinv⟩ := splicePass_okZ
    (r.NumSymbols + r.EccSymbols) f0.code.length (f0 :: rest)
    ⟨fun _ _ => 0, fun _ => false⟩ (fun _ => none) hinv0
    (fun f hf => ⟨(hfrag f hf).1, by rw [hm0 f hf, hm]⟩)
    (fun _ _ c hc => Option.noConfusion hc)
    (fun f hf g hg hpos => by
      rw [(hfrag f hf).2, (hfrag g hg).2]
      have : f.pos.val = g.pos.val := by rw [hpos]
      rw [this])
  obtain ⟨hfl, hlenp, htmp⟩ := hinv
  have hpm : ∀ p, pmapIns (f0 :: rest) (fun _ => none) p =
      if (∃ f ∈ f0 :: rest, f.pos.val = p) then
        some (rowsE.map (fun row => row.getD p 0))
      else none :=
    pmapIns_eq (fun p => rowsE.map (fun row => row.getD p 0)) (f0 :: rest)
      (fun _ => none) (fun f hf => (hfrag f hf).2)
  have hflagT : ∀ p, st.flag p = true ↔ (∃ f ∈ f0 :: rest, f.pos.val = p) := by
    intro p
    rw [hfl p, hpm p]
    by_cases hc : ∃ f ∈ f0 :: rest, f.pos.val = p
    · rw [if_pos hc]
      exact iff_of_true rfl hc
    · rw [if_neg hc]
      exact iff_of_false (by simp) hc
  have htmpc : ∀ j p, j < f0.code.length → st.flag p = true →
      st.tmp j p = (rowsE.map (fun row => row.getD p 0)).getD j 0 := by
    intro j p hj hfp
    rw [htmp j p hj, hpm p, if_pos ((hflagT p).mp hfp)]
    rfl
  -- the missing-position list
  set errP := (List.range (r.NumSymbols + r.EccSymbols)).filter
    (fun i => st.flag i = false) with herrPdef
  have herrPnd : errP.Nodup := List.Nodup.filter _ (List.nodup_range _)
  have herrPrange : ∀ p ∈ errP, p < r.NumSymbols + r.EccSymbols := by
    intro p hp
    rw [herrPdef] at hp
    exact List.mem_range.mp (List.mem_filter.mp hp).1
  have herrPmem : ∀ p, p ∈ errP ↔
      (p < r.NumSymbols + r.EccSymbols ∧ st.flag p = false) := by
    intro p
    rw [herrPdef, List.mem_filter, List.mem_range]
    constructor
    · rintro ⟨h1, h2⟩
      exact ⟨h1, of_decide_eq_true h2⟩
    · rintro ⟨h1, h2⟩
      exact ⟨h1, decide_eq_true h2⟩
  -- the position set of the presented fragments
  have hSsub : ((f0 :: rest).map (fun f => f.pos.val)).toFinset ⊆
      Finset.range (r.NumSymbols + r.EccSymbols) := by
    intro p hp
    rw [List.mem_toFinset, List.mem_map] at hp
    obtain ⟨f, hf, hfp⟩ := hp
    rw [Finset.mem_range, ← hfp]
    exact (hfrag f hf).1
  have hcardErr : errP.length ≤ r.EccSymbols := by
    have h1 : errP.toFinset ⊆
        Finset.range (r.NumSymbols + r.EccSymbols) \
          ((f0 :: rest).map (fun f => f.pos.val)).toFinset := by
      intro p hp
      rw [List.mem_toFinset] at hp
      obtain ⟨hlt, hflg⟩ := (herrPmem p).mp hp
      rw [Finset.mem_sdiff, Finset.mem_range]
      refine ⟨hlt, ?_⟩
      intro hpS
      rw [List.mem_toFinset, List.mem_map] at hpS
      obtain ⟨f, hf, hfp⟩ := hpS
      have := (hflagT p).mpr ⟨f, hf, hfp⟩
      rw [hflg] at this
      cases this
    have h2 := Finset.card_le_card h1
    rw [Finset.card_sdiff hSsub, Finset.card_range] at h2
    have h3 := Finset.card_le_card hSsub
    rw [Finset.card_range] at h3
    rw [← List.toFinset_card_of_nodup herrPnd]
    omega
  -- per-row decode
  set rowsW := (List.range f0.code.length).map
    (fun j => (List.range (r.NumSymbols + r.EccSymbols)).map (st.tmp j))
    with hrowsWdef
  have hrowslen : rowsW.length = f0.code.length := by
    rw [hrowsWdef, List.length_map, List.length_range]
  have hsubs_len_eq : subs.length = f0.code.length := by
    rw [hm, hrowsE, List.length_map]
  have hF2 : List.Forall₂
      (fun row out => rsDecode r.NumSymbols r.EccSymbols row errP =
        (out, true)) rowsW subs := by
    rw [List.forall₂_iff_get]
    refine ⟨by rw [hrowslen, hsubs_len_eq], ?_⟩
    intro j h1 h2
    have hjm : j < f0.code.length := by rw [← hrowslen]; exact h1
    have hjr : j < rowsE.length := by rw [← hm]; exact hjm
    have h1' : j < ((List.range f0.code.length).map
        (fun j => (List.range (r.NumSymbols + r.EccSymbols)).map
          (st.tmp j))).length := h1
    have hget1 : rowsW.get ⟨j, h1⟩ =
        (List.range (r.NumSymbols + r.EccSymbols)).map (st.tmp j) := by
      show ((List.range f0.code.length).map
        (fun j => (List.range (r.NumSymbols + r.EccSymbols)).map
          (st.tmp j))).get ⟨j, h1'⟩ = _
      rw [List.get_eq_getElem, List.getElem_map, List.getElem_range]
    rw [hget1]
    have hmem_s : subs.get ⟨j, h2⟩ ∈ subs := List.get_mem subs j h2
    apply rsDecode_correct r.NumSymbols r.EccSymbols (subs.get ⟨j, h2⟩)
      _ errP (hsubslen _ hmem_s) hTot
      (by rw [List.length_map, List.length_range]) herrPnd herrPrange hcardErr
    intro q hq hqe
    have hwq : ((List.range (r.NumSymbols + r.EccSymbols)).map
        (st.tmp j)).getD q 0 = st.tmp j q := by
      have hq' : q < ((List.range (r.NumSymbols + r.EccSymbols)).map
          (st.tmp j)).length := by
        rw [List.length_map, List.length_range]
        exact hq
      rw [List.getD_eq_getElem?_getD, List.getElem?_eq_getElem hq']
      show ((List.range (r.NumSymbols + r.EccSymbols)).map
        (st.tmp j)).get ⟨q, hq'⟩ = _
      rw [List.get_eq_getElem, List.getElem_map, List.getElem_range]
    have hfq : st.flag q = true := by
      cases hbool : st.flag q with
      | false => exact absurd ((herrPmem q).mpr ⟨hq, hbool⟩) hqe
      | true => rfl
    rw [hwq, htmpc j q hjm hfq]
    have hjmap : j < (rowsE.map (fun row => row.getD q 0)).length := by
      rw [List.length_map]
      exact hjr
    rw [List.getD_eq_getElem?_getD, List.getElem?_eq_getElem hjmap]
    show (rowsE.map (fun row => row.getD q 0))[j] = _
    rw [List.getElem_map]
    have hjr' : j < (subs.map (fun row => rsEncode r.EccSymbols row)).length :=
      hjr
    have hrow : (rowsE.get ⟨j, hjr⟩ : List GF) =
        rsEncode r.EccSymbols (subs.get ⟨j, h2⟩) := by
      show (subs.map (fun row => rsEncode r.EccSymbols row)).get ⟨j, hjr'⟩ = _
      rw [List.get_eq_getElem, List.getElem_map]
      rfl
    rw [List.get_eq_getElem] at hrow
    rw [hrow]
  have hdecode : decodeRowsLoop r.NumSymbols r.EccSymbols errP rowsW =
      some padded := by
    calc decodeRowsLoop r.NumSymbols r.EccSymbols errP rowsW
        = some subs.flatten := decodeRowsLoop_ok _ _ _ rowsW subs hF2
      _ = some padded := by rw [hflat]
  obtain ⟨pad, hpadded⟩ := hpadded_pad
  have hpadded' : padded = b ++ (1 : GF) :: List.replicate pad 0 := by
    rw [hpadded, hdata1, List.append_assoc]
    rfl
  have hsent : lastSentinelIdx padded = some b.length := by
    rw [hpadded']
    exact lastSentinelIdx_pad b pad
  have htakeb : padded.take b.length = b := by
    rw [hpadded']
    exact List.take_left' rfl
  -- assemble
  show r.SpliceAndDecode (f0 :: rest) = some (b, true)
  simp only [RSCodec.SpliceAndDecode]
  rw [hsp]
  show (match decodeRowsLoop r.NumSymbols r.EccSymbols errP rowsW with
    | none => some (([] : List GF), false)
    | some ret =>
      match lastSentinelIdx ret with
      | none => some (([] : List GF), false)
      | some i => some (ret.take i, true)) = some (b, true)
  rw [hdecode]
  show (match lastSentinelIdx padded with
    | none => some (([] : List GF), false)
    | some i => some (padded.take i, true)) = some (b, true)
  rw [hsent]
  show some (padded.take b.length, true) = some (b, true)
  rw [htakeb]

/-- Witness: the round-trip theorem evaluated at `N = 1`, `E = 1` and
the one-byte payload `0x2a`, presenting both emitted fragments. -/
theorem divide_and_encode_splice_roundtrip_witness :
    (⟨285, 1, 1⟩ : RSCodec).SpliceAndDecode
      ((⟨285, 1, 1⟩ : RSCodec).DivideAndEncode [⟨42⟩]) =
      some ([⟨42⟩], true) :=
  divide_and_encode_splice_roundtrip ⟨285, 1, 1⟩ [⟨42⟩] (by decide) (by decide)
    ((⟨285, 1, 1⟩ : RSCodec).DivideAndEncode [⟨42⟩]) (fun _ hf => hf)
    (by decide)
